import Mathlib

/-!
Verification development for the RouteSim repository.

The definitions below are a shallow embedding of the TypeScript sources:
  * `runDijkstra`, `runBellmanFord`, `runAlgorithm` from `src/services/geminiService.ts`
    (the algorithm engine half of that file),
  * `INITIAL_GRAPH`, `INFINITY` from the constants module,
  * `shortestPathData` (path reconstruction) and the per-packet arrival logic of
    `updatePackets` from `src/App.tsx`.

Modelling conventions:
  * JavaScript `Record<string, number>` maps are modelled as total functions
    `String → Nat` built by folding the same insertions the source performs;
    a key the source never writes reads as the fold's base value.  Every lookup
    the algorithms perform is on a written key, so this does not change behaviour.
  * TypeScript declares `Link.source : string | Node` because d3 mutates links in
    place; every algorithm reads endpoints through
    `typeof l.source === 'string' ? l.source : l.source.id`, i.e. the node id,
    so the embedding stores the normalized id directly.
  * JavaScript `Set` objects (insertion ordered, deduplicating) are modelled as
    `List String` with a guarded append (`addUniq`).
  * Numbers are `Nat` where the source manipulates integer weights/distances and
    `ℚ` for packet progress/speed.
-/

/-- `src/types.ts` `Node` (visual d3 fields omitted; they are never read by the core). -/
structure Node where
  id : String
  active : Bool
deriving DecidableEq, Repr

/-- `src/types.ts` `Link`, with `source`/`target` stored as the normalized node id. -/
structure Link where
  id : String
  source : String
  target : String
  weight : Nat
  active : Bool
deriving DecidableEq, Repr

/-- `src/types.ts` `GraphData`. -/
structure GraphData where
  nodes : List Node
  links : List Link
deriving Repr

/-- `src/constants.ts` `INFINITY`, the finite "unreachable" sentinel. -/
def INFINITY : Nat := 9999

/-- `src/types.ts` `AlgorithmType`. -/
inductive AlgorithmType
  | DIJKSTRA
  | BELLMAN_FORD
deriving DecidableEq, Repr

/-- `src/types.ts` `SimulationStep`.  `distances`/`previous` are the record
snapshots (`{...distances}`) taken at push time. -/
structure SimulationStep where
  stepIndex : Nat
  description : String
  distances : String → Nat
  previous : String → Option String
  activeNodes : List String
  activeLinks : List String
  visitedNodes : List String

/-- Point update of a record modelled as a function. -/
def upd {α : Type} (f : String → α) (k : String) (v : α) : String → α :=
  fun x => if x = k then v else f x

/-- `Set.add` on an insertion-ordered, deduplicating JavaScript `Set`. -/
def addUniq (u : List String) (x : String) : List String :=
  if x ∈ u then u else u ++ [x]

/-- The ids collected into `activeNodeIds` (membership is all the source uses). -/
def activeNodeIdList (data : GraphData) : List String :=
  (data.nodes.filter (fun n => n.active)).map (fun n => n.id)

/-- The `data.nodes.forEach` initialization of the `distances` record
(both algorithms): `(node.id === startNodeId && node.active) ? 0 : INFINITY`. -/
def initDist (data : GraphData) (startNodeId : String) : String → Nat :=
  data.nodes.foldl
    (fun d n => upd d n.id (if n.id = startNodeId ∧ n.active then 0 else INFINITY))
    (fun _ => INFINITY)

/-- The `data.nodes.forEach` initialization of the `previous` record. -/
def initPrev (data : GraphData) : String → Option String :=
  data.nodes.foldl (fun p n => upd p n.id none) (fun _ => none)

/-- The `unvisited` set after initialization (insertion order, active nodes only). -/
def initUnvisited (data : GraphData) : List String :=
  data.nodes.foldl (fun u n => if n.active then addUniq u n.id else u) []

/-- The `unvisited.forEach` minimum scan of `runDijkstra`: first node whose
distance strictly improves the running minimum (which starts at `INFINITY`). -/
def selectMin (unvisited : List String) (d : String → Nat) : Option String :=
  (unvisited.foldl
    (fun acc x => if d x < acc.2 then (some x, d x) else acc)
    ((none : Option String), INFINITY)).1

/-- `const neighborId = sId === currentId ? tId : sId`. -/
def linkOther (l : Link) (u : String) : String :=
  if l.source = u then l.target else l.source

/-- The `for (const link of neighbors)` relaxation loop of one Dijkstra
iteration, written as structural recursion over the neighbor list (a `for..of`
loop threading the emitted steps and the live `distances`/`previous` records). -/
def relaxNeighbors (aIds : List String) (u : String) (visited : List String) :
    List Link → List SimulationStep → (String → Nat) → (String → Option String) →
    List SimulationStep × (String → Nat) × (String → Option String)
  | [], steps, d, p => (steps, d, p)
  | l :: rest, steps, d, p =>
    let nb := linkOther l u
    if nb ∈ aIds then
      if nb ∈ visited then relaxNeighbors aIds u visited rest steps d p
      else
        let alt := d u + l.weight
        if alt < d nb then
          let d' := upd d nb alt
          let p' := upd p nb (some u)
          relaxNeighbors aIds u visited rest
            (steps ++ [{ stepIndex := steps.length,
                         description := s!"Relaxing edge {u}-{nb}: Updated distance to {nb} to {alt}.",
                         distances := d', previous := p', activeNodes := [u, nb],
                         activeLinks := [l.id], visitedNodes := visited }])
            d' p'
        else relaxNeighbors aIds u visited rest steps d p
    else relaxNeighbors aIds u visited rest steps d p

/-- Dijkstra loop state: the live records plus the `visited`/`unvisited` sets. -/
structure DState where
  dist : String → Nat
  prev : String → Option String
  visited : List String
  unvisited : List String

/-- The `while (unvisited.size > 0)` loop of `runDijkstra`.  The source loop has
no counter; every iteration that does not `break` removes the selected node from
`unvisited`, so running it with `fuel` initially equal to the size of the
unvisited set is exactly the source's loop (the fuel can never be exhausted
before the set empties). -/
def dijkstraLoop (links : List Link) (aIds : List String) :
    Nat → DState → List SimulationStep → List SimulationStep × DState
  | 0, st, steps => (steps, st)
  | Nat.succ fuel, st, steps =>
    if st.unvisited = [] then (steps, st)
    else
      match selectMin st.unvisited st.dist with
      | none => (steps, st)
      | some u =>
        if st.dist u = INFINITY then (steps, st)
        else
          let unvisited' := st.unvisited.erase u
          let visited' := addUniq st.visited u
          let selStep : SimulationStep :=
            { stepIndex := steps.length,
              description := s!"Selected node {u} with minimum distance {st.dist u}.",
              distances := st.dist, previous := st.prev, activeNodes := [u],
              activeLinks := [], visitedNodes := visited' }
          let neighbors := links.filter (fun l => l.source = u ∨ l.target = u)
          let r := relaxNeighbors aIds u visited' neighbors (steps ++ [selStep]) st.dist st.prev
          -- (the source pushes the selection step, then relaxes each neighbor)
          dijkstraLoop links aIds fuel
            { dist := r.2.1, prev := r.2.2, visited := visited', unvisited := unvisited' } r.1

/-- The initial step pushed by `runDijkstra` for a valid start node. -/
def dijkstraInitStep (data : GraphData) (startNodeId : String) : SimulationStep :=
  { stepIndex := 0,
    description := s!"Initialized distances. Start node {startNodeId} is 0.",
    distances := initDist data startNodeId, previous := initPrev data,
    activeNodes := [startNodeId], activeLinks := [], visitedNodes := [] }

/-- The whole Dijkstra main loop, from the freshly initialized state (the
source's `let` bindings named as definitions for reuse in proofs). -/
def dijkstraRun (data : GraphData) (startNodeId : String) :
    List SimulationStep × DState :=
  dijkstraLoop (data.links.filter (fun l => l.active)) (activeNodeIdList data)
    (initUnvisited data).length
    { dist := initDist data startNodeId, prev := initPrev data, visited := [],
      unvisited := initUnvisited data }
    [dijkstraInitStep data startNodeId]

/-- `runDijkstra` from `src/services/geminiService.ts`. -/
def runDijkstra (data : GraphData) (startNodeId : String) : List SimulationStep :=
  if startNodeId ∈ activeNodeIdList data then
    (dijkstraRun data startNodeId).1 ++
      [{ stepIndex := (dijkstraRun data startNodeId).1.length,
         description := "Dijkstra Algorithm complete.",
         distances := (dijkstraRun data startNodeId).2.dist,
         previous := (dijkstraRun data startNodeId).2.prev, activeNodes := [],
         activeLinks := [], visitedNodes := (dijkstraRun data startNodeId).2.visited }]
  else
    [{ stepIndex := 0,
       description := s!"Start node {startNodeId} is inactive/failed. Cannot route.",
       distances := initDist data startNodeId, previous := initPrev data,
       activeNodes := [], activeLinks := [], visitedNodes := [] }]

/-- Bellman-Ford loop state (no visited set in this variant). -/
structure BState where
  dist : String → Nat
  prev : String → Option String

/-- One direction of the `edgesToCheck` relaxation of `runBellmanFord`:
`if (distances[edge.from] !== INFINITY && distances[edge.from] + link.weight < distances[edge.to])`. -/
def bfRelaxDir (i : Nat) (wt : Nat) (lid : String) (fromId toId : String)
    (acc : List SimulationStep × BState × Bool) : List SimulationStep × BState × Bool :=
  if acc.2.1.dist fromId ≠ INFINITY ∧ acc.2.1.dist fromId + wt < acc.2.1.dist toId then
    let nd := acc.2.1.dist fromId + wt
    let d' := upd acc.2.1.dist toId nd
    let p' := upd acc.2.1.prev toId (some fromId)
    (acc.1 ++ [{ stepIndex := acc.1.length,
                 description := s!"Iteration {i + 1}: Relaxing {fromId}->{toId}. New dist: {nd}.",
                 distances := d', previous := p', activeNodes := [fromId, toId],
                 activeLinks := [lid], visitedNodes := [] }],
     ⟨d', p'⟩, true)
  else acc

/-- The `for (const link of links)` scan of one Bellman-Ford iteration, written
as structural recursion: skip links with an inactive endpoint, otherwise try
relaxation in both directions (`u→v` then `v→u`). -/
def bfScan (aIds : List String) (i : Nat) :
    List Link → List SimulationStep × BState × Bool → List SimulationStep × BState × Bool
  | [], acc => acc
  | l :: rest, acc =>
    if l.source ∈ aIds ∧ l.target ∈ aIds then
      bfScan aIds i rest
        (bfRelaxDir i l.weight l.id l.target l.source
          (bfRelaxDir i l.weight l.id l.source l.target acc))
    else bfScan aIds i rest acc

/-- One outer iteration of `runBellmanFord` (the `somethingChanged` flag starts
false each iteration). -/
def bfRound (links : List Link) (aIds : List String) (i : Nat)
    (steps : List SimulationStep) (st : BState) : List SimulationStep × BState × Bool :=
  bfScan aIds i links (steps, st, false)

/-- The `for (let i = 0; i < V - 1; i++)` loop of `runBellmanFord`, with the
early `break` (and "Converged" step) when an iteration changes nothing. -/
def bfIter (links : List Link) (aIds : List String) :
    Nat → Nat → List SimulationStep → BState → List SimulationStep × BState
  | 0, _, steps, st => (steps, st)
  | Nat.succ n, i, steps, st =>
    let r := bfRound links aIds i steps st
    if r.2.2 then bfIter links aIds n (i + 1) r.1 r.2.1
    else
      (r.1 ++ [{ stepIndex := r.1.length,
                 description := s!"Iteration {i + 1}: No changes. Converged.",
                 distances := r.2.1.dist, previous := r.2.1.prev, activeNodes := [],
                 activeLinks := [], visitedNodes := [] }],
       r.2.1)

/-- The initial step pushed by `runBellmanFord` for a valid start node. -/
def bellmanInitStep (data : GraphData) (startNodeId : String) : SimulationStep :=
  { stepIndex := 0, description := "Initialized distances.",
    distances := initDist data startNodeId, previous := initPrev data,
    activeNodes := [startNodeId], activeLinks := [], visitedNodes := [] }

/-- The whole Bellman-Ford outer loop (`V - 1` iterations over the active node
count, truncated subtraction matching the JavaScript `i < V - 1` bound). -/
def bellmanRun (data : GraphData) (startNodeId : String) :
    List SimulationStep × BState :=
  bfIter (data.links.filter (fun l => l.active)) (activeNodeIdList data)
    ((data.nodes.filter (fun n => n.active)).length - 1) 0
    [bellmanInitStep data startNodeId]
    ⟨initDist data startNodeId, initPrev data⟩

/-- `runBellmanFord` from `src/services/geminiService.ts`. -/
def runBellmanFord (data : GraphData) (startNodeId : String) : List SimulationStep :=
  if startNodeId ∈ activeNodeIdList data then
    (bellmanRun data startNodeId).1 ++
      [{ stepIndex := (bellmanRun data startNodeId).1.length,
         description := "Bellman-Ford Algorithm complete.",
         distances := (bellmanRun data startNodeId).2.dist,
         previous := (bellmanRun data startNodeId).2.prev, activeNodes := [],
         activeLinks := [], visitedNodes := [] }]
  else
    [{ stepIndex := 0, description := s!"Start node {startNodeId} is inactive.",
       distances := initDist data startNodeId, previous := initPrev data,
       activeNodes := [], activeLinks := [], visitedNodes := [] }]

/-- `runAlgorithm` from `src/services/geminiService.ts`. -/
def runAlgorithm (type : AlgorithmType) (data : GraphData) (startNodeId : String) :
    List SimulationStep :=
  match type with
  | AlgorithmType.DIJKSTRA => runDijkstra data startNodeId
  | AlgorithmType.BELLMAN_FORD => runBellmanFord data startNodeId

/-- `INITIAL_GRAPH` from `src/constants.ts`. -/
def INITIAL_GRAPH : GraphData :=
  { nodes := [⟨"A", true⟩, ⟨"B", true⟩, ⟨"C", true⟩, ⟨"D", true⟩, ⟨"E", true⟩, ⟨"F", true⟩],
    links := [⟨"AB", "A", "B", 4, true⟩, ⟨"AC", "A", "C", 2, true⟩, ⟨"BC", "B", "C", 1, true⟩,
              ⟨"BD", "B", "D", 5, true⟩, ⟨"CE", "C", "E", 8, true⟩, ⟨"CD", "C", "D", 10, true⟩,
              ⟨"DE", "D", "E", 2, true⟩, ⟨"DF", "D", "F", 6, true⟩, ⟨"EF", "E", "F", 3, true⟩] }

/-- A placeholder step, used only as the `getLastD` default when reading the last
element of a step list (the step lists are proved nonempty, claim C10). -/
def defaultStep : SimulationStep :=
  { stepIndex := 0, description := "", distances := fun _ => INFINITY,
    previous := fun _ => none, activeNodes := [], activeLinks := [], visitedNodes := [] }

/-- The final ("converged") step of a run: `steps[steps.length - 1]`. -/
def finalStep (type : AlgorithmType) (data : GraphData) (startNodeId : String) :
    SimulationStep :=
  (runAlgorithm type data startNodeId).getLastD defaultStep

/-- Result of `shortestPathData` (`src/App.tsx`).  The source's `cost` field is a
union `number | '∞'`; `none` models the string `'∞'`. -/
structure PathResult where
  cost : Option Nat
  pathIds : List String
  pathString : String
deriving DecidableEq, Repr

/-- The `graphData.links.find(...)` lookup shared by `shortestPathData`,
`updatePackets` and `handleSendTraffic`: the first link joining the two ids in
either orientation, ignoring the `active` flag. -/
def findLinkBetween (links : List Link) (a b : String) : Option Link :=
  links.find? (fun l =>
    decide ((l.source = a ∧ l.target = b) ∨ (l.source = b ∧ l.target = a)))

/-- The backward `while (curr !== startNode && safety < graphData.nodes.length)`
walk of `shortestPathData`.  `fuel` is the remaining headroom of the `safety`
counter, so the recursion is the source loop verbatim.  A `previous` entry that
is `null` (here `none`) or the empty string is falsy in the source's
`if (!prev) break`. -/
def reconLoop (prevMap : String → Option String) (links : List Link) (startNode : String) :
    Nat → String → List String → List String → List String × List String
  | 0, _, pathIds, nodePath => (pathIds, nodePath)
  | Nat.succ fuel, curr, pathIds, nodePath =>
    if curr = startNode then (pathIds, nodePath)
    else
      match prevMap curr with
      | none => (pathIds, nodePath)
      | some prev =>
        if prev = "" then (pathIds, nodePath)
        else
          let pathIds' :=
            match findLinkBetween links prev curr with
            | some l => pathIds ++ [l.id]
            | none => pathIds
          reconLoop prevMap links startNode fuel prev pathIds' (prev :: nodePath)

/-- `shortestPathData` from `src/App.tsx` (the `useMemo` body).  `endNode` is
`string | null`; a `none` or empty-string end node is falsy in the source's
`!endNode` guard. -/
def shortestPathData (endNode : Option String) (currentStep : Option SimulationStep)
    (graphData : GraphData) (startNode : String) : PathResult :=
  match endNode, currentStep with
  | some e, some st =>
    if e = "" then { cost := some 0, pathIds := [], pathString := "" }
    else if INFINITY ≤ st.distances e then
      { cost := none, pathIds := [], pathString := "Unreachable" }
    else
      let r := reconLoop st.previous graphData.links startNode
        graphData.nodes.length e [] [e]
      { cost := some (st.distances e), pathIds := r.1,
        pathString := String.intercalate " → " r.2 }
  | _, _ => { cost := some 0, pathIds := [], pathString := "" }

/-- `Packet.status` values. -/
inductive PacketStatus
  | moving
  | delivered
  | lost
deriving DecidableEq, Repr

/-- `src/types.ts` `Packet`.  `progress`/`speed` are JavaScript numbers used
only through `+`, `*` and `>= 1` here; they are modelled as rationals. -/
structure Packet where
  id : String
  sourceId : String
  targetId : String
  currentEdgeId : Option String
  currentNodeId : String
  nextHopId : Option String
  progress : ℚ
  speed : ℚ
  status : PacketStatus
deriving DecidableEq, Repr

/-- The `while (curr && curr !== arrivedNodeId)` walk of `updatePackets`.  The
source loop is unbounded; it is run here with one unit of fuel per topology node
plus one, which the development proves sufficient for every predecessor map the
algorithm engine can produce.  JavaScript truthiness makes both `null` and the
empty string terminate the source loop. -/
def packetWalk (prevMap : String → Option String) (a : String) :
    Nat → Option String → List String → List String
  | 0, _, path => path
  | Nat.succ fuel, curr, path =>
    match curr with
    | none => path
    | some c =>
      if c = "" ∨ c = a then path
      else packetWalk prevMap a fuel (prevMap c) (path ++ [c])

/-- The per-packet body of `updatePackets` (`src/App.tsx`): advance one moving
packet by `delta` simulated seconds.  `p.nextHopId.getD ""` models the source's
non-null assertion `p.nextHopId!`; a moving packet always has a next hop. -/
def updatePacket (algorithm : AlgorithmType) (graphData : GraphData) (delta : ℚ)
    (p : Packet) : Packet :=
  if p.status ≠ PacketStatus.moving then p
  else
    let newProgress := p.progress + p.speed * delta
    if 1 ≤ newProgress then
      let a := p.nextHopId.getD ""
      if a = p.targetId then
        { p with progress := 1, status := PacketStatus.delivered,
                 currentEdgeId := none, currentNodeId := a }
      else
        let routeSteps := runAlgorithm algorithm graphData a
        let convergedStep := routeSteps.getLastD defaultStep
        if INFINITY ≤ convergedStep.distances p.targetId then
          { p with status := PacketStatus.lost, progress := 1 }
        else
          let path := packetWalk convergedStep.previous a (graphData.nodes.length + 1)
            (some p.targetId) []
          match path.getLast? with
          | none => { p with status := PacketStatus.lost }
          | some nextHop =>
            match findLinkBetween graphData.links a nextHop with
            | some link =>
              if link.active then
                { p with currentNodeId := a, nextHopId := some nextHop,
                         currentEdgeId := some link.id, progress := 0 }
              else { p with status := PacketStatus.lost }
            | none => { p with status := PacketStatus.lost }
    else { p with progress := newProgress }

/-! ## Path semantics

The specification's notion of "path from the start node using only active nodes
and active links", used to state the shortest-distance claims. -/

/-- All node ids known to a topology. -/
def nodeIds (data : GraphData) : List String :=
  data.nodes.map (fun n => n.id)

/-- One undirected hop over an active link of weight `wt` whose two endpoints
are ids of active nodes. -/
def edgeRel (data : GraphData) (u v : String) (wt : Nat) : Prop :=
  u ∈ activeNodeIdList data ∧ v ∈ activeNodeIdList data ∧
    ∃ l ∈ data.links, l.active = true ∧ l.weight = wt ∧
      ((l.source = u ∧ l.target = v) ∨ (l.source = v ∧ l.target = u))

/-- Weighted walks over an edge relation `E`, built by appending hops at the
end.  `A` restricts the nodes a hop may depart from (used for the Dijkstra
invariant "paths whose interior lies in the visited set"); the node list `ns`
records every node visited, in order. -/
inductive WalkVia (E : String → String → Nat → Prop) (A : String → Prop) :
    String → String → Nat → List String → Prop
  | nil (a : String) : WalkVia E A a a 0 [a]
  | snoc {a b c : String} {w wt : Nat} {ns : List String} :
      WalkVia E A a b w ns → A b → E b c wt → WalkVia E A a c (w + wt) (ns ++ [c])

/-- A walk with unrestricted departures. -/
def Walk (E : String → String → Nat → Prop) (a c : String) (w : Nat) : Prop :=
  ∃ ns, WalkVia E (fun _ => True) a c w ns

/-- The spec's path predicate: `w` is the total weight of some path from `s` to
`v` that uses only active nodes and active links. -/
def hasPath (data : GraphData) (s v : String) (w : Nat) : Prop :=
  s ∈ activeNodeIdList data ∧ Walk (edgeRel data) s v w

/-! ## Proof-infrastructure definitions -/

/-- Relation between consecutive emitted steps (claim C7): whenever a node's
`previous` entry changes from one step to the next, its distance strictly
decreases. -/
def stepRel (s1 s2 : SimulationStep) : Prop :=
  ∀ n, s2.previous n ≠ s1.previous n → s2.distances n < s1.distances n

/-- Invariant tying an emitted step list to the live records: the list is
`stepRel`-chained and its last snapshot equals the live state. -/
def StepsOK (steps : List SimulationStep) (d : String → Nat)
    (p : String → Option String) : Prop :=
  List.Chain' stepRel steps ∧ ∀ x ∈ steps.getLast?, x.distances = d ∧ x.previous = p

/-- Specification-side characterization of a final `distances` map (claim C1 as
amended): every entry is capped by the sentinel, every finite entry is the
least weight over active paths, and the sentinel marks exactly the nodes with
no path of weight below the sentinel. -/
def FinalChar (data : GraphData) (s : String) (d : String → Nat) : Prop :=
  ∀ v, d v ≤ INFINITY ∧
    (d v < INFINITY → hasPath data s v (d v) ∧ ∀ w, hasPath data s v w → d v ≤ w) ∧
    (d v = INFINITY → ∀ w, hasPath data s v w → INFINITY ≤ w)

/-- Loop invariant of the embedded Dijkstra main loop. -/
structure DInv (data : GraphData) (s : String) (st : DState) : Prop where
  cap : ∀ v, st.dist v ≤ INFINITY
  startActive : s ∈ activeNodeIdList data
  startDist : st.dist s = 0
  partition : ∀ x, (x ∈ st.visited ∨ x ∈ st.unvisited) ↔ x ∈ activeNodeIdList data
  disj : ∀ x ∈ st.visited, x ∉ st.unvisited
  unvNodup : st.unvisited.Nodup
  visitedOpt : ∀ x ∈ st.visited, ∀ w, Walk (edgeRel data) s x w → st.dist x ≤ w
  visitedFin : ∀ x ∈ st.visited, st.dist x < INFINITY
  reach : ∀ v, st.dist v < INFINITY → Walk (edgeRel data) s v (st.dist v)
  boundary : ∀ x ∈ st.visited, ∀ v wt, v ∉ st.visited → edgeRel data x v wt →
      st.dist v ≤ st.dist x + wt
  inactive : ∀ v, v ∉ activeNodeIdList data → st.dist v = INFINITY
  prevSome : ∀ v, v ≠ s → st.dist v < INFINITY → st.prev v ≠ none
  prevData : ∀ v u, st.prev v = some u → v ≠ s ∧ st.dist v < INFINITY ∧ u ∈ st.visited ∧
      ∃ wt, edgeRel data u v wt ∧ st.dist v = st.dist u + wt

/-- Loop invariant of the embedded Bellman-Ford loop.  Unlike Dijkstra, a
stored predecessor witnesses only `dist u + wt ≤ dist v` (the source of the
last assignment may have improved since). -/
structure BInv (data : GraphData) (s : String) (st : BState) : Prop where
  cap : ∀ v, st.dist v ≤ INFINITY
  startActive : s ∈ activeNodeIdList data
  startDist : st.dist s = 0
  reach : ∀ v, st.dist v < INFINITY → Walk (edgeRel data) s v (st.dist v)
  inactive : ∀ v, v ∉ activeNodeIdList data → st.dist v = INFINITY
  prevSome : ∀ v, v ≠ s → st.dist v < INFINITY → st.prev v ≠ none
  prevData : ∀ v u, st.prev v = some u → v ≠ s ∧ st.dist v < INFINITY ∧
      ∃ wt, edgeRel data u v wt ∧ st.dist u + wt ≤ st.dist v

/-- "Every walk of at most `k` hops is already relaxed" (Bellman-Ford round
invariant; a walk's node list has one more entry than it has hops). -/
def BoundedOK (data : GraphData) (s : String) (k : Nat) (d : String → Nat) : Prop :=
  ∀ v w ns, WalkVia (edgeRel data) (fun _ => True) s v w ns →
    ns.length ≤ k + 1 → w < INFINITY → d v ≤ w

/-- No guarded relaxation applies anywhere (what a "Converged" iteration
witnesses). -/
def RelaxFixpoint (data : GraphData) (d : String → Nat) : Prop :=
  ∀ u v wt, edgeRel data u v wt → d u ≠ INFINITY → d v ≤ d u + wt

/-- Shape of a converged routing table used by the reconstruction claims: each
finite non-start entry has a predecessor one active hop closer to the start,
with exact cost bookkeeping. -/
def GoodState (data : GraphData) (s : String) (d : String → Nat)
    (p : String → Option String) : Prop :=
  (∀ v, d v ≤ INFINITY) ∧ d s = 0 ∧ s ∈ activeNodeIdList data ∧
  ∀ v, v ≠ s → d v < INFINITY →
    ∃ u wt, p v = some u ∧ edgeRel data u v wt ∧ d v = d u + wt ∧ d u < INFINITY

/-- Total weight of a reconstructed link path (ids resolved against the
topology; an unknown id contributes nothing). -/
def linkPathWeight (data : GraphData) (ids : List String) : Nat :=
  (ids.map (fun i =>
    (((data.links.find? (fun l => decide (l.id = i))).map Link.weight).getD 0))).sum

/-- Predecessor chains of a converged routing table: the node list certifies
that following `p` from `v` reaches the start `s`, with exact per-hop cost
bookkeeping at each link.  The reconstruction loops of `src/App.tsx` retrace
exactly such a chain. -/
inductive PChain (data : GraphData) (s : String) (d : String → Nat)
    (p : String → Option String) : String → List String → Prop
  | nil : PChain data s d p s [s]
  | cons {v u : String} {rest : List String} :
      v ≠ s → p v = some u → (∃ wt, edgeRel data u v wt ∧ d v = d u + wt) →
      PChain data s d p u rest → PChain data s d p v (v :: rest)

/-- At most one link of the topology joins any given unordered pair of nodes.
The reconstruction lookups return the *first* matching link regardless of its
`active` flag, so this is what makes them return the link the algorithm
actually relaxed. -/
def pairUnique (data : GraphData) : Prop :=
  ∀ l1 ∈ data.links, ∀ l2 ∈ data.links,
    ((l1.source = l2.source ∧ l1.target = l2.target) ∨
      (l1.source = l2.target ∧ l1.target = l2.source)) → l1 = l2

/-- A packet arriving exactly at its own target node (exercises the delivery
branch of `updatePackets`). -/
def movingPacket : Packet :=
  { id := "q", sourceId := "E", targetId := "F", currentEdgeId := some "EF",
    currentNodeId := "E", nextHopId := some "F", progress := 1, speed := 0,
    status := PacketStatus.moving }

/-- Counterexample topology for C1: one active link heavier than the sentinel. -/
def capGraph : GraphData :=
  { nodes := [⟨"A", true⟩, ⟨"B", true⟩],
    links := [⟨"L", "A", "B", 10000, true⟩] }

/-- Counterexample topology for C5/C8: two links join A and B, the first one
inactive, plus an active link B-C. -/
def dupLinkGraph : GraphData :=
  { nodes := [⟨"A", true⟩, ⟨"B", true⟩, ⟨"C", true⟩],
    links := [⟨"L1", "A", "B", 3, false⟩, ⟨"L2", "A", "B", 2, true⟩,
              ⟨"L3", "B", "C", 2, true⟩] }

/-- A packet that has just arrived at node A while heading for C
(`progress + speed·δ = 1` at δ = 0). -/
def lostPacket : Packet :=
  { id := "p", sourceId := "B", targetId := "C", currentEdgeId := some "L2",
    currentNodeId := "B", nextHopId := some "A", progress := 1, speed := 0,
    status := PacketStatus.moving }

/-- A hand-built step whose `previous` pointers form the cycle B ↔ C
(the "external misuse" scenario of claim C9). -/
def cyclicStep : SimulationStep :=
  { stepIndex := 0, description := "",
    distances := fun x => if x = "B" then 5 else if x = "C" then 6 else INFINITY,
    previous := fun x =>
      if x = "B" then some "C" else if x = "C" then some "B" else none,
    activeNodes := [], activeLinks := [], visitedNodes := [] }

/-- Three nodes and no links, as the topology paired with `cyclicStep`. -/
def triGraph : GraphData :=
  { nodes := [⟨"A", true⟩, ⟨"B", true⟩, ⟨"C", true⟩], links := [] }

/-! ## Basic facts about the engine output -/

theorem initDist_const (data : GraphData) (s : String) (h : s ∉ activeNodeIdList data)
    (v : String) : initDist data s v = INFINITY := by
  have H : ∀ (ns : List Node), (∀ n ∈ ns, ¬(n.id = s ∧ n.active = true)) →
      ∀ (base : String → Nat), (∀ x, base x = INFINITY) →
      ∀ x, (ns.foldl (fun d n => upd d n.id (if n.id = s ∧ n.active then 0 else INFINITY))
        base) x = INFINITY := by
    intro ns
    induction ns with
    | nil => intro _ base hbase x; exact hbase x
    | cons n t ih =>
        intro hns base hbase x
        refine ih (fun m hm => hns m (List.mem_cons_of_mem n hm)) _ ?_ x
        intro y
        unfold upd
        by_cases hy : y = n.id
        · have hn := hns n (List.mem_cons_self n t)
          subst hy
          simp [hn]
        · simp [hy, hbase y]
  refine H data.nodes ?_ _ (fun _ => rfl) v
  intro n hn hcontra
  refine h ?_
  unfold activeNodeIdList
  exact List.mem_map.mpr ⟨n, List.mem_filter.mpr ⟨hn, by simp [hcontra.2]⟩, hcontra.1⟩

/-- Claim C10: the engine never returns an empty trace, so reading the last
element (`routeSteps[routeSteps.length - 1]`, as the packet re-routing and
traffic-spawning call sites do) is always in bounds. -/
theorem runAlgorithm_steps_nonempty (t : AlgorithmType) (data : GraphData) (s : String) :
    runAlgorithm t data s ≠ [] ∧
    (runAlgorithm t data s).length - 1 < (runAlgorithm t data s).length := by
  have hne : runAlgorithm t data s ≠ [] := by
    cases t <;> simp only [runAlgorithm]
    · unfold runDijkstra
      by_cases h : s ∈ activeNodeIdList data <;> simp [h]
    · unfold runBellmanFord
      by_cases h : s ∈ activeNodeIdList data <;> simp [h]
  refine ⟨hne, ?_⟩
  have : 0 < (runAlgorithm t data s).length := List.length_pos.mpr hne
  omega

/-- Claim C4: for an inactive or unknown start node, both variants return a
single terminal step with every distance at the sentinel and empty
active/visited sets. -/
theorem invalid_start_single_step (t : AlgorithmType) (data : GraphData) (s : String)
    (h : s ∉ activeNodeIdList data) :
    (runAlgorithm t data s).length = 1 ∧
    ∀ st ∈ runAlgorithm t data s,
      (∀ v, st.distances v = INFINITY) ∧ st.activeNodes = [] ∧ st.activeLinks = [] ∧
        st.visitedNodes = [] := by
  cases t <;> simp only [runAlgorithm]
  · unfold runDijkstra
    simp only [if_neg h]
    refine ⟨rfl, ?_⟩
    intro st hst
    rw [List.mem_singleton] at hst
    subst hst
    exact ⟨fun v => initDist_const data s h v, rfl, rfl, rfl⟩
  · unfold runBellmanFord
    simp only [if_neg h]
    refine ⟨rfl, ?_⟩
    intro st hst
    rw [List.mem_singleton] at hst
    subst hst
    exact ⟨fun v => initDist_const data s h v, rfl, rfl, rfl⟩

/-- Witness for C4 at a concrete input: node "Z" is not in the initial graph. -/
theorem invalid_start_single_step_witness :
    ("Z" ∉ activeNodeIdList INITIAL_GRAPH) ∧
    ((runAlgorithm AlgorithmType.DIJKSTRA INITIAL_GRAPH "Z").length = 1 ∧
    ∀ st ∈ runAlgorithm AlgorithmType.DIJKSTRA INITIAL_GRAPH "Z",
      (∀ v, st.distances v = INFINITY) ∧ st.activeNodes = [] ∧ st.activeLinks = [] ∧
        st.visitedNodes = []) :=
  ⟨by decide, invalid_start_single_step AlgorithmType.DIJKSTRA INITIAL_GRAPH "Z" (by decide)⟩

/-- Claim C2, counterexample: on the fixture graph the final `previous` entry of
node E is C, not D as the spec's fixture states (D would give the A-C-B-D-F
route of cost 14, contradicting the claimed cost 13). -/
theorem dijkstra_fixture_previous_counterexample :
    (finalStep AlgorithmType.DIJKSTRA INITIAL_GRAPH "A").previous "E" = some "C" ∧
    (finalStep AlgorithmType.DIJKSTRA INITIAL_GRAPH "A").previous "F" = some "E" ∧
    some "C" ≠ (some "D" : Option String) ∧ some "E" ≠ (some "D" : Option String) := by
  decide

/-- Claim C2, amended: the fixture distances are as claimed, but the `previous`
map is `{B:C, C:A, D:B, E:C, F:E}` and the A-to-F route of cost 13 is
A-C-E-F. -/
theorem dijkstra_fixture_final_table :
    (finalStep AlgorithmType.DIJKSTRA INITIAL_GRAPH "A").distances "A" = 0 ∧
    (finalStep AlgorithmType.DIJKSTRA INITIAL_GRAPH "A").distances "B" = 3 ∧
    (finalStep AlgorithmType.DIJKSTRA INITIAL_GRAPH "A").distances "C" = 2 ∧
    (finalStep AlgorithmType.DIJKSTRA INITIAL_GRAPH "A").distances "D" = 8 ∧
    (finalStep AlgorithmType.DIJKSTRA INITIAL_GRAPH "A").distances "E" = 10 ∧
    (finalStep AlgorithmType.DIJKSTRA INITIAL_GRAPH "A").distances "F" = 13 ∧
    (finalStep AlgorithmType.DIJKSTRA INITIAL_GRAPH "A").previous "A" = none ∧
    (finalStep AlgorithmType.DIJKSTRA INITIAL_GRAPH "A").previous "B" = some "C" ∧
    (finalStep AlgorithmType.DIJKSTRA INITIAL_GRAPH "A").previous "C" = some "A" ∧
    (finalStep AlgorithmType.DIJKSTRA INITIAL_GRAPH "A").previous "D" = some "B" ∧
    (finalStep AlgorithmType.DIJKSTRA INITIAL_GRAPH "A").previous "E" = some "C" ∧
    (finalStep AlgorithmType.DIJKSTRA INITIAL_GRAPH "A").previous "F" = some "E" ∧
    shortestPathData (some "F") (some (finalStep AlgorithmType.DIJKSTRA INITIAL_GRAPH "A"))
        INITIAL_GRAPH "A"
      = { cost := some 13, pathIds := ["EF", "CE", "AC"], pathString := "A → C → E → F" } := by
  decide

/-! ## Claim C7: predecessor updates are strict improvements -/

theorem stepsOK_append {steps : List SimulationStep} {d : String → Nat}
    {p : String → Option String} (h : StepsOK steps d p) (st : SimulationStep)
    (hrel : ∀ n, st.previous n ≠ p n → st.distances n < d n) :
    StepsOK (steps ++ [st]) st.distances st.previous := by
  constructor
  · rw [List.chain'_append]
    refine ⟨h.1, List.chain'_singleton st, ?_⟩
    intro x hx y hy
    have hy' : st = y := by simpa using hy
    subst hy'
    have hx' := h.2 x hx
    intro n hne
    rw [hx'.1]
    refine hrel n ?_
    rw [← hx'.2]
    exact hne
  · intro x hx
    have hlast : (steps ++ [st]).getLast? = some st := by
      rw [List.getLast?_concat]
    rw [hlast] at hx
    have hx' : st = x := by simpa using hx
    subst hx'
    exact ⟨rfl, rfl⟩

theorem relaxNeighbors_stepsOK (aIds : List String) (u : String) (visited : List String) :
    ∀ (neighbors : List Link) (steps : List SimulationStep) (d : String → Nat)
      (p : String → Option String), StepsOK steps d p →
    StepsOK (relaxNeighbors aIds u visited neighbors steps d p).1
      (relaxNeighbors aIds u visited neighbors steps d p).2.1
      (relaxNeighbors aIds u visited neighbors steps d p).2.2 := by
  intro neighbors
  induction neighbors with
  | nil => intro steps d p h; simpa [relaxNeighbors] using h
  | cons l rest ih =>
      intro steps d p h
      simp only [relaxNeighbors]
      by_cases h1 : linkOther l u ∈ aIds
      · simp only [if_pos h1]
        by_cases h2 : linkOther l u ∈ visited
        · simp only [if_pos h2]; exact ih steps d p h
        · simp only [if_neg h2]
          by_cases h3 : d u + l.weight < d (linkOther l u)
          · simp only [if_pos h3]
            refine ih _ _ _ ?_
            refine stepsOK_append h _ ?_
            intro n hne
            by_cases hn : n = linkOther l u
            · subst hn
              simpa [upd] using h3
            · exact absurd (by simp [upd, hn]) hne
          · simp only [if_neg h3]; exact ih steps d p h
      · simp only [if_neg h1]; exact ih steps d p h

theorem dijkstraLoop_stepsOK (links : List Link) (aIds : List String) :
    ∀ (fuel : Nat) (st : DState) (steps : List SimulationStep),
      StepsOK steps st.dist st.prev →
    StepsOK (dijkstraLoop links aIds fuel st steps).1
      (dijkstraLoop links aIds fuel st steps).2.dist
      (dijkstraLoop links aIds fuel st steps).2.prev := by
  intro fuel
  induction fuel with
  | zero => intro st steps h; simpa [dijkstraLoop] using h
  | succ fuel ih =>
      intro st steps h
      simp only [dijkstraLoop]
      by_cases hU : st.unvisited = []
      · simp only [if_pos hU]; exact h
      · simp only [if_neg hU]
        cases hSel : selectMin st.unvisited st.dist with
        | none => exact h
        | some u =>
            by_cases hInf : st.dist u = INFINITY
            · simp only [if_pos hInf]; exact h
            · simp only [if_neg hInf]
              refine ih _ _ ?_
              refine relaxNeighbors_stepsOK aIds u _ _ _ _ _ ?_
              refine stepsOK_append h _ ?_
              intro n hne
              exact absurd rfl hne

theorem chain'_of_stepsOK_concat {steps : List SimulationStep} {d : String → Nat}
    {p : String → Option String} (h : StepsOK steps d p) (st : SimulationStep)
    (hd : st.distances = d) (hp : st.previous = p) :
    List.Chain' stepRel (steps ++ [st]) := by
  refine (stepsOK_append h st ?_).1
  intro n hne
  rw [hp] at hne
  exact absurd rfl hne

theorem stepsOK_singleton (st : SimulationStep) : StepsOK [st] st.distances st.previous := by
  refine ⟨List.chain'_singleton _, ?_⟩
  intro x hx
  have hx' : st = x := by simpa using hx
  subst hx'
  exact ⟨rfl, rfl⟩

/-- Claim C7: within one Dijkstra run, a node's recorded predecessor changes
between consecutive emitted steps only when its distance strictly decreases at
that step (equal-cost alternatives never overwrite a predecessor). -/
theorem dijkstra_previous_update_strict (data : GraphData) (s : String) :
    List.Chain' stepRel (runDijkstra data s) := by
  unfold runDijkstra
  by_cases h : s ∈ activeNodeIdList data
  · simp only [if_pos h]
    exact chain'_of_stepsOK_concat
      (dijkstraLoop_stepsOK _ _ _ _ _ (stepsOK_singleton _)) _ rfl rfl
  · simp only [if_neg h]
    exact List.chain'_singleton _

/-! ## Small facts about the initialization helpers -/

theorem mem_addUniq {u : List String} {x y : String} :
    y ∈ addUniq u x ↔ y ∈ u ∨ y = x := by
  unfold addUniq
  by_cases h : x ∈ u
  · simp only [if_pos h]
    constructor
    · exact fun hy => Or.inl hy
    · rintro (hy | rfl)
      · exact hy
      · exact h
  · simp [if_neg h]

theorem addUniq_nodup {u : List String} {x : String} (h : u.Nodup) :
    (addUniq u x).Nodup := by
  unfold addUniq
  by_cases hx : x ∈ u
  · simpa [if_pos hx] using h
  · simp only [if_neg hx]
    exact List.Nodup.append h (List.nodup_singleton x) (by simpa using hx)

theorem mem_activeNodeIdList {data : GraphData} {x : String} :
    x ∈ activeNodeIdList data ↔ ∃ n ∈ data.nodes, n.active = true ∧ n.id = x := by
  unfold activeNodeIdList
  simp only [List.mem_map, List.mem_filter]
  constructor
  · rintro ⟨n, ⟨hn, ha⟩, rfl⟩
    exact ⟨n, hn, ha, rfl⟩
  · rintro ⟨n, hn, ha, rfl⟩
    exact ⟨n, ⟨hn, ha⟩, rfl⟩

theorem mem_initUnvisited (data : GraphData) (x : String) :
    x ∈ initUnvisited data ↔ x ∈ activeNodeIdList data := by
  rw [mem_activeNodeIdList]
  unfold initUnvisited
  have H : ∀ (ns : List Node) (acc : List String),
      x ∈ ns.foldl (fun u n => if n.active then addUniq u n.id else u) acc ↔
        x ∈ acc ∨ ∃ n ∈ ns, n.active = true ∧ n.id = x := by
    intro ns
    induction ns with
    | nil => intro acc; simp
    | cons n t ih =>
        intro acc
        simp only [List.foldl_cons]
        by_cases ha : n.active
        · rw [if_pos ha, ih, mem_addUniq]
          constructor
          · rintro (⟨hacc | rfl⟩ | ⟨m, hm, hma, rfl⟩)
            · exact Or.inl hacc
            · exact Or.inr ⟨n, List.mem_cons_self n t, by simpa using ha, rfl⟩
            · exact Or.inr ⟨m, List.mem_cons_of_mem n hm, hma, rfl⟩
          · rintro (hacc | ⟨m, hm, hma, rfl⟩)
            · exact Or.inl (Or.inl hacc)
            · rcases List.mem_cons.mp hm with rfl | hm'
              · exact Or.inl (Or.inr rfl)
              · exact Or.inr ⟨m, hm', hma, rfl⟩
        · rw [if_neg ha, ih]
          constructor
          · rintro (hacc | ⟨m, hm, hma, rfl⟩)
            · exact Or.inl hacc
            · exact Or.inr ⟨m, List.mem_cons_of_mem n hm, hma, rfl⟩
          · rintro (hacc | ⟨m, hm, hma, rfl⟩)
            · exact Or.inl hacc
            · rcases List.mem_cons.mp hm with rfl | hm'
              · exact absurd (by simpa using hma) ha
              · exact Or.inr ⟨m, hm', hma, rfl⟩
  rw [H]
  simp

theorem initUnvisited_nodup (data : GraphData) : (initUnvisited data).Nodup := by
  unfold initUnvisited
  have H : ∀ (ns : List Node) (acc : List String), acc.Nodup →
      (ns.foldl (fun u n => if n.active then addUniq u n.id else u) acc).Nodup := by
    intro ns
    induction ns with
    | nil => intro acc h; simpa using h
    | cons n t ih =>
        intro acc h
        simp only [List.foldl_cons]
        by_cases ha : n.active
        · rw [if_pos ha]; exact ih _ (addUniq_nodup h)
        · rw [if_neg ha]; exact ih _ h
  exact H data.nodes [] List.nodup_nil

theorem initPrev_eq_none (data : GraphData) (v : String) : initPrev data v = none := by
  unfold initPrev
  have H : ∀ (ns : List Node) (base : String → Option String),
      (∀ x, base x = none) →
      ∀ x, (ns.foldl (fun p n => upd p n.id none) base) x = none := by
    intro ns
    induction ns with
    | nil => intro base h x; exact h x
    | cons n t ih =>
        intro base h x
        refine ih _ ?_ x
        intro y
        unfold upd
        by_cases hy : y = n.id <;> simp [hy, h y]
  exact H data.nodes _ (fun _ => rfl) v

theorem initDist_le (data : GraphData) (s v : String) :
    initDist data s v ≤ INFINITY := by
  unfold initDist
  have H : ∀ (ns : List Node) (base : String → Nat),
      (∀ x, base x ≤ INFINITY) →
      ∀ x, (ns.foldl
        (fun d n => upd d n.id (if n.id = s ∧ n.active then 0 else INFINITY)) base) x
        ≤ INFINITY := by
    intro ns
    induction ns with
    | nil => intro base h x; exact h x
    | cons n t ih =>
        intro base h x
        refine ih _ ?_ x
        intro y
        by_cases hy : y = n.id
        · by_cases hc : n.id = s ∧ n.active = true <;> simp [upd, hy, hc, INFINITY]
        · simp [upd, hy, h y]
  exact H data.nodes _ (fun _ => le_refl _) v

theorem initDist_ne_start (data : GraphData) (s v : String) (hv : v ≠ s) :
    initDist data s v = INFINITY := by
  unfold initDist
  have H : ∀ (ns : List Node) (base : String → Nat),
      (∀ x, x ≠ s → base x = INFINITY) →
      ∀ x, x ≠ s → (ns.foldl
        (fun d n => upd d n.id (if n.id = s ∧ n.active then 0 else INFINITY)) base) x
        = INFINITY := by
    intro ns
    induction ns with
    | nil => intro base h x hx; exact h x hx
    | cons n t ih =>
        intro base h x hx
        refine ih _ ?_ x hx
        intro y hy
        by_cases hyn : y = n.id
        · subst hyn
          have hc : ¬(n.id = s ∧ n.active = true) := fun hc => hy hc.1
          simp [upd, hc]
        · simp [upd, hyn, h y hy]
  exact H data.nodes _ (fun _ _ => rfl) v hv

theorem foldl_initDist_untouched (s : String) :
    ∀ (ns : List Node) (base : String → Nat) (v : String),
      (∀ n ∈ ns, n.id ≠ v) →
      (ns.foldl
        (fun d n => upd d n.id (if n.id = s ∧ n.active then 0 else INFINITY)) base) v
        = base v := by
  intro ns
  induction ns with
  | nil => intro base v _; rfl
  | cons n t ih =>
      intro base v h
      simp only [List.foldl_cons]
      rw [ih _ v (fun m hm => h m (List.mem_cons_of_mem n hm))]
      have hne : v ≠ n.id := fun hv => h n (List.mem_cons_self n t) hv.symm
      simp [upd, hne]

theorem initDist_start (data : GraphData) (s : String)
    (hs : s ∈ activeNodeIdList data) (hnd : (nodeIds data).Nodup) :
    initDist data s s = 0 := by
  rcases mem_activeNodeIdList.mp hs with ⟨n0, hn0, ha0, hid0⟩
  unfold initDist
  have H : ∀ (ns : List Node) (base : String → Nat),
      (ns.map (fun n => n.id)).Nodup →
      ∀ n0 ∈ ns, n0.active = true → n0.id = s →
      (ns.foldl
        (fun d n => upd d n.id (if n.id = s ∧ n.active then 0 else INFINITY)) base) s
        = 0 := by
    intro ns
    induction ns with
    | nil => intro base _ n0 h; exact absurd h (List.not_mem_nil n0)
    | cons n t ih =>
        intro base hnd' m0 hm0 hma hmid
        simp only [List.foldl_cons]
        rcases List.mem_cons.mp hm0 with rfl | hm0'
        · -- the head is the unique node with id `s`; no later write touches `s`
          have hnone : ∀ m ∈ t, m.id ≠ s := by
            intro m hm hms
            have : m0.id ∈ t.map (fun n => n.id) :=
              List.mem_map.mpr ⟨m, hm, by rw [hms, hmid]⟩
            simp only [List.map_cons, List.nodup_cons] at hnd'
            exact hnd'.1 this
          rw [foldl_initDist_untouched s t _ s (fun m hm hms => hnone m hm hms)]
          simp [upd, hmid, hma]
        · -- the head has a different id, so its write does not affect key `s`
          simp only [List.map_cons, List.nodup_cons] at hnd'
          refine ih _ hnd'.2 m0 hm0' hma hmid
  exact H data.nodes _ (by simpa [nodeIds] using hnd) n0 hn0 ha0 hid0

/-! ## The minimum-selection scan -/

theorem selectMin_fold_spec (d : String → Nat) :
    ∀ (l : List String) (acc : Option String × Nat),
      (l.foldl (fun acc x => if d x < acc.2 then (some x, d x) else acc) acc).2 ≤ acc.2 ∧
      (∀ x ∈ l,
        (l.foldl (fun acc x => if d x < acc.2 then (some x, d x) else acc) acc).2 ≤ d x) ∧
      ((l.foldl (fun acc x => if d x < acc.2 then (some x, d x) else acc) acc) = acc ∨
        ∃ v ∈ l,
          (l.foldl (fun acc x => if d x < acc.2 then (some x, d x) else acc) acc).1 = some v ∧
          (l.foldl (fun acc x => if d x < acc.2 then (some x, d x) else acc) acc).2 = d v ∧
          (l.foldl (fun acc x => if d x < acc.2 then (some x, d x) else acc) acc).2 < acc.2) := by
  intro l
  induction l with
  | nil => intro acc; exact ⟨le_refl _, by simp, Or.inl rfl⟩
  | cons a t ih =>
      intro acc
      simp only [List.foldl_cons]
      by_cases hlt : d a < acc.2
      · rw [if_pos hlt]
        rcases ih (some a, d a) with ⟨ih1, ih2, ih3⟩
        refine ⟨le_trans ih1 (le_of_lt hlt), ?_, ?_⟩
        · intro x hx
          rcases List.mem_cons.mp hx with rfl | hx'
          · exact ih1
          · exact ih2 x hx'
        · rcases ih3 with heq | ⟨v, hv, h1, h2, h3⟩
          · refine Or.inr ⟨a, List.mem_cons_self a t, ?_, ?_, ?_⟩
            · rw [heq]
            · rw [heq]
            · rw [heq]; exact hlt
          · exact Or.inr ⟨v, List.mem_cons_of_mem a hv, h1, h2, lt_of_lt_of_le h3 (le_of_lt hlt)⟩
      · rw [if_neg hlt]
        rcases ih acc with ⟨ih1, ih2, ih3⟩
        refine ⟨ih1, ?_, ?_⟩
        · intro x hx
          rcases List.mem_cons.mp hx with rfl | hx'
          · exact le_trans ih1 (le_of_not_lt hlt)
          · exact ih2 x hx'
        · rcases ih3 with heq | ⟨v, hv, h1, h2, h3⟩
          · exact Or.inl heq
          · exact Or.inr ⟨v, List.mem_cons_of_mem a hv, h1, h2, h3⟩

theorem selectMin_some_spec {U : List String} {d : String → Nat} {u : String}
    (h : selectMin U d = some u) :
    u ∈ U ∧ d u < INFINITY ∧ ∀ z ∈ U, d u ≤ d z := by
  unfold selectMin at h
  rcases selectMin_fold_spec d U ((none : Option String), INFINITY) with ⟨_, h2, h3⟩
  rcases h3 with heq | ⟨v, hv, hv1, hv2, hv3⟩
  · rw [heq] at h; cases h
  · rw [hv1] at h
    cases h
    refine ⟨hv, by rwa [hv2] at hv3, ?_⟩
    intro z hz
    rw [← hv2]
    exact h2 z hz

theorem selectMin_none_spec {U : List String} {d : String → Nat}
    (h : selectMin U d = none) : ∀ z ∈ U, INFINITY ≤ d z := by
  unfold selectMin at h
  rcases selectMin_fold_spec d U ((none : Option String), INFINITY) with ⟨_, h2, h3⟩
  rcases h3 with heq | ⟨v, hv, hv1, hv2, hv3⟩
  · intro z hz
    have := h2 z hz
    rwa [heq] at this
  · rw [hv1] at h; cases h

/-! ## Reading the final step of a run -/

theorem finalStep_dijkstra_active (data : GraphData) (s : String)
    (h : s ∈ activeNodeIdList data) :
    (finalStep AlgorithmType.DIJKSTRA data s).distances = (dijkstraRun data s).2.dist ∧
    (finalStep AlgorithmType.DIJKSTRA data s).previous = (dijkstraRun data s).2.prev := by
  unfold finalStep runAlgorithm runDijkstra
  rw [if_pos h, List.getLastD_concat]
  exact ⟨rfl, rfl⟩

theorem finalStep_bellman_active (data : GraphData) (s : String)
    (h : s ∈ activeNodeIdList data) :
    (finalStep AlgorithmType.BELLMAN_FORD data s).distances = (bellmanRun data s).2.dist ∧
    (finalStep AlgorithmType.BELLMAN_FORD data s).previous = (bellmanRun data s).2.prev := by
  unfold finalStep runAlgorithm runBellmanFord
  rw [if_pos h, List.getLastD_concat]
  exact ⟨rfl, rfl⟩

theorem finalStep_inactive (t : AlgorithmType) (data : GraphData) (s : String)
    (h : s ∉ activeNodeIdList data) :
    (finalStep t data s).distances = initDist data s ∧
    (finalStep t data s).previous = initPrev data := by
  cases t <;> unfold finalStep runAlgorithm
  · unfold runDijkstra
    rw [if_neg h]
    exact ⟨rfl, rfl⟩
  · unfold runBellmanFord
    rw [if_neg h]
    exact ⟨rfl, rfl⟩

/-! ## Walk theory -/

theorem walkVia_mono {E : String → String → Nat → Prop} {A B : String → Prop}
    {a c : String} {w : Nat} {ns : List String} (h : WalkVia E A a c w ns)
    (hAB : ∀ x, A x → B x) : WalkVia E B a c w ns := by
  induction h with
  | nil => exact WalkVia.nil _
  | snoc hw hA hE ih => exact WalkVia.snoc ih (hAB _ hA) hE

theorem walkVia_shape {E : String → String → Nat → Prop} {A : String → Prop}
    {a c : String} {w : Nat} {ns : List String} (h : WalkVia E A a c w ns) :
    ns ≠ [] ∧ ns.getLast? = some c ∧ ns.head? = some a := by
  induction h with
  | nil => exact ⟨by simp, rfl, rfl⟩
  | snoc hw hA hE ih =>
      refine ⟨by simp, List.getLast?_concat _, ?_⟩
      rcases ih with ⟨hne, _, hhead⟩
      rw [List.head?_append, hhead]
      rfl

theorem walkVia_nodes_active {data : GraphData} {A : String → Prop}
    {a c : String} {w : Nat} {ns : List String}
    (h : WalkVia (edgeRel data) A a c w ns) :
    ∀ x ∈ ns, x = a ∨ x ∈ activeNodeIdList data := by
  induction h with
  | nil => intro x hx; exact Or.inl (by simpa using hx)
  | snoc hw hA hE ih =>
      intro x hx
      rcases List.mem_append.mp hx with hx' | hx'
      · exact ih x hx'
      · have hxc := List.mem_singleton.mp hx'
        subst hxc
        exact Or.inr hE.2.1

theorem walkVia_endpoint_active {data : GraphData} {A : String → Prop}
    {a c : String} {w : Nat} {ns : List String}
    (h : WalkVia (edgeRel data) A a c w ns) :
    c = a ∨ c ∈ activeNodeIdList data := by
  cases h with
  | nil => exact Or.inl rfl
  | snoc hw hA hE => exact Or.inr hE.2.1

theorem walkVia_split {E : String → String → Nat → Prop} {A : String → Prop}
    {a c : String} {w : Nat} :
    ∀ {ns l₁ l₂ : List String} {x : String}, WalkVia E A a c w ns →
      ns = l₁ ++ x :: l₂ →
      ∃ w₁ w₂, w = w₁ + w₂ ∧ WalkVia E A a x w₁ (l₁ ++ [x]) ∧
        WalkVia E A x c w₂ (x :: l₂) := by
  intro ns l₁ l₂ x h
  induction h generalizing l₁ l₂ x with
  | nil =>
      intro heq
      cases l₁ with
      | nil =>
          simp only [List.nil_append] at heq
          injection heq with h1 h2
          subst h1
          subst h2
          exact ⟨0, 0, rfl, WalkVia.nil _, WalkVia.nil _⟩
      | cons hd tl =>
          simp only [List.cons_append] at heq
          injection heq with h1 h2
          simp at h2
  | @snoc b c' w' wt ns' hw hA hE ih =>
      intro heq
      rcases List.eq_nil_or_concat l₂ with rfl | ⟨l₂', y, rfl⟩
      · have h2 : ns' = l₁ ∧ [c'] = [x] :=
          List.append_inj' heq rfl
        rcases h2 with ⟨rfl, hx⟩
        injection hx with hx1 _
        subst hx1
        exact ⟨w' + wt, 0, rfl, WalkVia.snoc hw hA hE, WalkVia.nil _⟩
      · have heq2 : ns' ++ [c'] = (l₁ ++ x :: l₂') ++ [y] := by
          rw [heq]; simp
        have h2 : ns' = l₁ ++ x :: l₂' ∧ [c'] = [y] := List.append_inj' heq2 rfl
        rcases h2 with ⟨h3, hy⟩
        injection hy with hy1 _
        subst hy1
        rcases ih h3 with ⟨w₁, w₂, hww, hwa, hwb⟩
        refine ⟨w₁, w₂ + wt, by omega, hwa, ?_⟩
        have hres := WalkVia.snoc hwb hA hE
        simpa using hres

theorem walkVia_combine {E : String → String → Nat → Prop} {A : String → Prop}
    {a x : String} {w₁ : Nat} {l₁ : List String} :
    ∀ {c : String} {w₂ : Nat} {ns₂ l₂ : List String},
      WalkVia E A a x w₁ (l₁ ++ [x]) → WalkVia E A x c w₂ ns₂ → ns₂ = x :: l₂ →
      WalkVia E A a c (w₁ + w₂) (l₁ ++ x :: l₂) := by
  intro c w₂ ns₂ l₂ h1 h2
  induction h2 generalizing l₂ with
  | nil =>
      intro heq
      injection heq with h3 h4
      subst h4
      simpa using h1
  | @snoc b c' w' wt ns' hw hA hE ih =>
      intro heq
      have hne : ns' ≠ [] := (walkVia_shape hw).1
      cases ns' with
      | nil => exact absurd rfl hne
      | cons hd t =>
          simp only [List.cons_append] at heq
          injection heq with h3 h4
          subst h3
          subst h4
          have hres := WalkVia.snoc (ih rfl) hA hE
          have hl : (l₁ ++ hd :: t) ++ [c'] = l₁ ++ hd :: (t ++ [c']) := by simp
          rw [hl] at hres
          have hww : w₁ + w' + wt = w₁ + (w' + wt) := by omega
          rwa [hww] at hres

theorem exists_dup_split {l : List String} (h : ¬ l.Nodup) :
    ∃ p x m q, l = p ++ x :: (m ++ x :: q) := by
  induction l with
  | nil => exact absurd List.nodup_nil h
  | cons a t ih =>
      by_cases ha : a ∈ t
      · rcases List.append_of_mem ha with ⟨m, q, rfl⟩
        exact ⟨[], a, m, q, rfl⟩
      · have ht : ¬ t.Nodup := by
          intro hnd
          exact h (List.nodup_cons.mpr ⟨ha, hnd⟩)
        rcases ih ht with ⟨p, x, m, q, rfl⟩
        exact ⟨a :: p, x, m, q, rfl⟩

theorem walkVia_dedup {E : String → String → Nat → Prop} {A : String → Prop} :
    ∀ (n : Nat) {ns : List String} {a c : String} {w : Nat}, ns.length ≤ n →
      WalkVia E A a c w ns →
      ∃ w' ns', w' ≤ w ∧ ns'.Nodup ∧ WalkVia E A a c w' ns' := by
  intro n
  induction n with
  | zero =>
      intro ns a c w hlen h
      have := (walkVia_shape h).1
      cases ns with
      | nil => exact absurd rfl this
      | cons hd t => simp at hlen
  | succ n ih =>
      intro ns a c w hlen h
      by_cases hnd : ns.Nodup
      · exact ⟨w, ns, le_refl _, hnd, h⟩
      · rcases exists_dup_split hnd with ⟨p, x, m, q, rfl⟩
        rcases walkVia_split h rfl with ⟨w₁, w₂, hw12, hwa, hwb⟩
        rcases walkVia_split hwb
            (show x :: (m ++ x :: q) = (x :: m) ++ x :: q by simp) with
          ⟨w₃, w₄, hw34, _, hwd⟩
        have hcomb := walkVia_combine hwa hwd rfl
        have hlen2 : (p ++ x :: q).length ≤ n := by
          simp only [List.length_append, List.length_cons] at hlen ⊢
          omega
        rcases ih hlen2 hcomb with ⟨w', ns', hle, hnd', hwalk⟩
        exact ⟨w', ns', by omega, hnd', hwalk⟩

theorem walk_exit {E : String → String → Nat → Prop} (S : List String)
    {a c : String} {w : Nat} {ns : List String}
    (h : WalkVia E (fun _ => True) a c w ns) :
    (∃ ns', WalkVia E (fun x => x ∈ S) a c w ns') ∨
    ∃ y w₁ ns₁, y ∉ S ∧ WalkVia E (fun x => x ∈ S) a y w₁ ns₁ ∧ w₁ ≤ w := by
  induction h with
  | nil => exact Or.inl ⟨_, WalkVia.nil _⟩
  | @snoc b c' w' wt ns' hw hA hE ih =>
      rcases ih with ⟨ns₁, hwalk⟩ | ⟨y, w₁, ns₁, hy, hwalk, hle⟩
      · by_cases hb : b ∈ S
        · exact Or.inl ⟨ns₁ ++ [c'], WalkVia.snoc hwalk hb hE⟩
        · exact Or.inr ⟨b, w', ns₁, hb, hwalk, Nat.le_add_right _ _⟩
      · exact Or.inr ⟨y, w₁, ns₁, hy, hwalk, le_trans hle (Nat.le_add_right _ _)⟩

/-! ## Effect of one Dijkstra relaxation pass on the records -/

theorem upd_same {α : Type} (f : String → α) (k : String) (v : α) : upd f k v k = v := by
  simp [upd]

theorem upd_ne {α : Type} (f : String → α) {k x : String} (v : α) (h : x ≠ k) :
    upd f k v x = f x := by
  simp [upd, h]

theorem relaxNeighbors_effect (aIds : List String) (u : String) (visited : List String)
    (hu : u ∈ visited) :
    ∀ (neighbors : List Link) (steps sr : List SimulationStep) (d dr : String → Nat)
      (p pr : String → Option String),
      relaxNeighbors aIds u visited neighbors steps d p = (sr, dr, pr) →
      (∀ v, dr v ≤ d v) ∧ dr u = d u ∧
      (∀ v, (dr v ≠ d v ∨ pr v ≠ p v) →
        v ∈ aIds ∧ v ∉ visited ∧ pr v = some u ∧
        ∃ l ∈ neighbors, linkOther l u = v ∧ dr v = d u + l.weight ∧ dr v < d v) ∧
      (∀ l ∈ neighbors, linkOther l u ∈ aIds → linkOther l u ∉ visited →
        dr (linkOther l u) ≤ d u + l.weight) := by
  intro neighbors
  induction neighbors with
  | nil =>
      intro steps sr d dr p pr hr
      simp only [relaxNeighbors] at hr
      injection hr with h1 h2
      injection h2 with h2 h3
      subst h2; subst h3
      refine ⟨fun v => le_refl _, rfl, ?_, ?_⟩
      · intro v hv
        rcases hv with hv | hv <;> exact absurd rfl hv
      · intro l hl
        exact absurd hl (List.not_mem_nil l)
  | cons l rest ih =>
      intro steps sr d dr p pr hr
      simp only [relaxNeighbors] at hr
      by_cases h1 : linkOther l u ∈ aIds
      · rw [if_pos h1] at hr
        by_cases h2 : linkOther l u ∈ visited
        · rw [if_pos h2] at hr
          rcases ih _ _ _ _ _ _ hr with ⟨c1, c2, c3, c4⟩
          refine ⟨c1, c2, ?_, ?_⟩
          · intro v hv
            rcases c3 v hv with ⟨ha, hb, hc, ll, hll, h5, h6, h7⟩
            exact ⟨ha, hb, hc, ll, List.mem_cons_of_mem l hll, h5, h6, h7⟩
          · intro l' hl' ha hb
            rcases List.mem_cons.mp hl' with rfl | hl''
            · exact absurd h2 hb
            · exact c4 l' hl'' ha hb
        · rw [if_neg h2] at hr
          by_cases h3 : d u + l.weight < d (linkOther l u)
          · rw [if_pos h3] at hr
            rcases ih _ _ _ _ _ _ hr with ⟨c1, c2, c3, c4⟩
            have hnbu : linkOther l u ≠ u := fun he => h2 (by rw [he]; exact hu)
            have hdu : upd d (linkOther l u) (d u + l.weight) u = d u := upd_ne _ _ hnbu.symm
            refine ⟨?_, ?_, ?_, ?_⟩
            · intro v
              refine le_trans (c1 v) ?_
              by_cases hv : v = linkOther l u
              · subst hv; rw [upd_same]; exact le_of_lt h3
              · rw [upd_ne _ _ hv]
            · rw [c2, hdu]
            · intro v hv
              by_cases hch : dr v ≠ upd d (linkOther l u) (d u + l.weight) v ∨
                  pr v ≠ upd p (linkOther l u) (some u) v
              · rcases c3 v hch with ⟨ha, hb, hc, ll, hll, h5, h6, h7⟩
                refine ⟨ha, hb, hc, ll, List.mem_cons_of_mem l hll, h5, ?_, ?_⟩
                · rw [h6, hdu]
                · refine lt_of_lt_of_le h7 ?_
                  by_cases hv2 : v = linkOther l u
                  · subst hv2; rw [upd_same]; exact le_of_lt h3
                  · rw [upd_ne _ _ hv2]
              · push_neg at hch
                rcases hch with ⟨he1, he2⟩
                by_cases hv2 : v = linkOther l u
                · subst hv2
                  rw [upd_same] at he1
                  rw [upd_same] at he2
                  refine ⟨h1, h2, he2, l, List.mem_cons_self l rest, rfl, he1, ?_⟩
                  rw [he1]; exact h3
                · rw [upd_ne _ _ hv2] at he1
                  rw [upd_ne _ _ hv2] at he2
                  rcases hv with hv | hv
                  · exact absurd he1 hv
                  · exact absurd he2 hv
            · intro l' hl' ha hb
              rcases List.mem_cons.mp hl' with rfl | hl''
              · refine le_trans (c1 _) ?_
                rw [upd_same]
              · exact le_trans (c4 l' hl'' ha hb) (by rw [hdu])
          · rw [if_neg h3] at hr
            rcases ih _ _ _ _ _ _ hr with ⟨c1, c2, c3, c4⟩
            refine ⟨c1, c2, ?_, ?_⟩
            · intro v hv
              rcases c3 v hv with ⟨ha, hb, hc, ll, hll, h5, h6, h7⟩
              exact ⟨ha, hb, hc, ll, List.mem_cons_of_mem l hll, h5, h6, h7⟩
            · intro l' hl' ha hb
              rcases List.mem_cons.mp hl' with rfl | hl''
              · exact le_trans (c1 _) (le_of_not_lt h3)
              · exact c4 l' hl'' ha hb
      · rw [if_neg h1] at hr
        rcases ih _ _ _ _ _ _ hr with ⟨c1, c2, c3, c4⟩
        refine ⟨c1, c2, ?_, ?_⟩
        · intro v hv
          rcases c3 v hv with ⟨ha, hb, hc, ll, hll, h5, h6, h7⟩
          exact ⟨ha, hb, hc, ll, List.mem_cons_of_mem l hll, h5, h6, h7⟩
        · intro l' hl' ha hb
          rcases List.mem_cons.mp hl' with rfl | hl''
          · exact absurd ha h1
          · exact c4 l' hl'' ha hb

/-! ## The Dijkstra invariant -/

theorem dinv_restricted {data : GraphData} {s : String} {st : DState}
    (hinv : DInv data s st) :
    ∀ {v : String} {w : Nat} {ns : List String},
      WalkVia (edgeRel data) (fun x => x ∈ st.visited) s v w ns → st.dist v ≤ w := by
  intro v w ns h
  induction h with
  | nil => exact le_of_eq hinv.startDist
  | @snoc b c' w' wt ns' hw hA hE ih =>
      by_cases hc : c' ∈ st.visited
      · refine hinv.visitedOpt c' hc (w' + wt) ?_
        exact ⟨_, WalkVia.snoc (walkVia_mono hw (fun _ _ => trivial)) trivial hE⟩
      · have hb := hinv.boundary b hA c' wt hc hE
        omega

theorem dinv_greedy {data : GraphData} {s : String} {st : DState}
    (hinv : DInv data s st) {u : String}
    (hsel : selectMin st.unvisited st.dist = some u) :
    ∀ w, Walk (edgeRel data) s u w → st.dist u ≤ w := by
  rcases selectMin_some_spec hsel with ⟨hmemU, hfin, hmin⟩
  intro w hw
  rcases hw with ⟨ns, hwalk⟩
  rcases walk_exit st.visited hwalk with ⟨ns', hin⟩ | ⟨y, w₁, ns₁, hy, hin, hle⟩
  · exact dinv_restricted hinv hin
  · have hdy : st.dist y ≤ w₁ := dinv_restricted hinv hin
    have hymem : y ∈ activeNodeIdList data := by
      rcases walkVia_endpoint_active hin with rfl | h
      · exact hinv.startActive
      · exact h
    have hyU : y ∈ st.unvisited := by
      rcases (hinv.partition y).mpr hymem with hS | hU
      · exact absurd hS hy
      · exact hU
    have := hmin y hyU
    omega

/-- The neighbors list seen by one Dijkstra iteration realizes `edgeRel`. -/
theorem edgeRel_of_neighbor (data : GraphData) (u : String) {l : Link}
    (hl : l ∈ (data.links.filter (fun l => l.active)).filter
      (fun l => l.source = u ∨ l.target = u))
    (hu : u ∈ activeNodeIdList data) (hnb : linkOther l u ∈ activeNodeIdList data) :
    edgeRel data u (linkOther l u) l.weight := by
  have hl1 := List.mem_filter.mp hl
  have hl2 := List.mem_filter.mp hl1.1
  have htouch : l.source = u ∨ l.target = u := by simpa using hl1.2
  have hact : l.active = true := by simpa using hl2.2
  refine ⟨hu, hnb, l, hl2.1, hact, rfl, ?_⟩
  unfold linkOther
  by_cases hsrc : l.source = u
  · rw [if_pos hsrc]
    exact Or.inl ⟨hsrc, rfl⟩
  · rw [if_neg hsrc]
    rcases htouch with h | h
    · exact absurd h hsrc
    · exact Or.inr ⟨rfl, h⟩

/-- Conversely, every active edge out of `u` appears in the neighbors list. -/
theorem neighbor_of_edgeRel (data : GraphData) (u v : String) (wt : Nat)
    (h : edgeRel data u v wt) (hvu : v ≠ u) :
    ∃ l ∈ (data.links.filter (fun l => l.active)).filter
        (fun l => l.source = u ∨ l.target = u),
      linkOther l u = v ∧ l.weight = wt := by
  rcases h with ⟨hau, hav, l, hl, hact, hwt, hends⟩
  refine ⟨l, ?_, ?_, hwt⟩
  · refine List.mem_filter.mpr ⟨List.mem_filter.mpr ⟨hl, by simpa using hact⟩, ?_⟩
    rcases hends with ⟨h1, h2⟩ | ⟨h1, h2⟩
    · simp [h1]
    · simp [h2]
  · unfold linkOther
    rcases hends with ⟨h1, h2⟩ | ⟨h1, h2⟩
    · rw [if_pos h1]; exact h2
    · have hne : l.source ≠ u := by rw [h1]; exact hvu
      rw [if_neg hne]; exact h1

theorem dinv_preserve (data : GraphData) (s : String) (st : DState)
    (hinv : DInv data s st) {u : String}
    (hsel : selectMin st.unvisited st.dist = some u)
    (steps sr : List SimulationStep)
    {dr : String → Nat} {pr : String → Option String}
    (hr : relaxNeighbors (activeNodeIdList data) u (addUniq st.visited u)
      ((data.links.filter (fun l => l.active)).filter
        (fun l => l.source = u ∨ l.target = u))
      steps st.dist st.prev = (sr, dr, pr)) :
    DInv data s ⟨dr, pr, addUniq st.visited u, st.unvisited.erase u⟩ := by
  rcases selectMin_some_spec hsel with ⟨hmemU, hfin, hmin⟩
  have huS' : u ∈ addUniq st.visited u := mem_addUniq.mpr (Or.inr rfl)
  rcases relaxNeighbors_effect _ u _ huS' _ _ _ _ _ _ _ hr with ⟨c1, c2, c3, c4⟩
  have hgreedy := dinv_greedy hinv hsel
  have huA : u ∈ activeNodeIdList data := (hinv.partition u).mp (Or.inr hmemU)
  have huNotS : u ∉ st.visited := fun h => hinv.disj u h hmemU
  have hvis_unch : ∀ x ∈ st.visited, dr x = st.dist x ∧ pr x = st.prev x := by
    intro x hx
    by_contra hc
    rw [not_and_or] at hc
    rcases c3 x hc with ⟨_, hb, _⟩
    exact hb (mem_addUniq.mpr (Or.inl hx))
  have hchange : ∀ v, (dr v = st.dist v ∧ pr v = st.prev v) ∨
      (v ∈ activeNodeIdList data ∧ v ∉ addUniq st.visited u ∧ pr v = some u ∧
        ∃ wt, edgeRel data u v wt ∧ dr v = st.dist u + wt ∧ dr v < st.dist v) := by
    intro v
    by_cases hch : dr v ≠ st.dist v ∨ pr v ≠ st.prev v
    · rcases c3 v hch with ⟨ha, hb, hc', ll, hll, hlo, heq, hlt⟩
      refine Or.inr ⟨ha, hb, hc', ll.weight, ?_, heq, hlt⟩
      have := edgeRel_of_neighbor data u hll huA (by rwa [hlo])
      rwa [hlo] at this
    · push_neg at hch
      exact Or.inl hch
  have hcap : ∀ v, dr v ≤ INFINITY := fun v => le_trans (c1 v) (hinv.cap v)
  have hsd : dr s = 0 := by
    rcases hchange s with ⟨he, _⟩ | ⟨_, _, _, wt, _, _, hlt⟩
    · rw [he]; exact hinv.startDist
    · have := hinv.startDist
      omega
  have hpart : ∀ x, (x ∈ addUniq st.visited u ∨ x ∈ st.unvisited.erase u) ↔
      x ∈ activeNodeIdList data := by
    intro x
    simp only [mem_addUniq, List.Nodup.mem_erase_iff hinv.unvNodup]
    constructor
    · rintro ((hx | rfl) | ⟨_, hx⟩)
      · exact (hinv.partition x).mp (Or.inl hx)
      · exact huA
      · exact (hinv.partition x).mp (Or.inr hx)
    · intro hx
      rcases (hinv.partition x).mpr hx with hS | hU
      · exact Or.inl (Or.inl hS)
      · by_cases hxu : x = u
        · exact Or.inl (Or.inr hxu)
        · exact Or.inr ⟨hxu, hU⟩
  have hdisj : ∀ x ∈ addUniq st.visited u, x ∉ st.unvisited.erase u := by
    intro x hx
    rw [List.Nodup.mem_erase_iff hinv.unvNodup]
    rcases mem_addUniq.mp hx with hS | rfl
    · rintro ⟨_, hU⟩
      exact hinv.disj x hS hU
    · rintro ⟨hne, _⟩
      exact hne rfl
  have hnodup : (st.unvisited.erase u).Nodup := List.Nodup.erase u hinv.unvNodup
  have hvo : ∀ x ∈ addUniq st.visited u, ∀ w, Walk (edgeRel data) s x w → dr x ≤ w := by
    intro x hx w hw
    rcases mem_addUniq.mp hx with hS | rfl
    · rw [(hvis_unch x hS).1]
      exact hinv.visitedOpt x hS w hw
    · rw [c2]
      exact hgreedy w hw
  have hvf : ∀ x ∈ addUniq st.visited u, dr x < INFINITY := by
    intro x hx
    rcases mem_addUniq.mp hx with hS | rfl
    · rw [(hvis_unch x hS).1]
      exact hinv.visitedFin x hS
    · rw [c2]
      exact hfin
  have hreach : ∀ v, dr v < INFINITY → Walk (edgeRel data) s v (dr v) := by
    intro v hv
    rcases hchange v with ⟨he, _⟩ | ⟨_, _, _, wt, hE, heq, _⟩
    · rw [he] at hv ⊢
      exact hinv.reach v hv
    · rcases hinv.reach u hfin with ⟨ns, hwalk⟩
      rw [heq]
      exact ⟨ns ++ [v], WalkVia.snoc hwalk trivial hE⟩
  have hbnd : ∀ x ∈ addUniq st.visited u, ∀ v wt, v ∉ addUniq st.visited u →
      edgeRel data x v wt → dr v ≤ dr x + wt := by
    intro x hx v wt hv hE
    rcases mem_addUniq.mp hx with hS | rfl
    · have hvS : v ∉ st.visited := fun h => hv (mem_addUniq.mpr (Or.inl h))
      have hold := hinv.boundary x hS v wt hvS hE
      have := c1 v
      rw [(hvis_unch x hS).1]
      omega
    · have hvu : v ≠ x := fun h => hv (by rw [h]; exact mem_addUniq.mpr (Or.inr rfl))
      rcases neighbor_of_edgeRel data x v wt hE hvu with ⟨l, hl, hlo, hlw⟩
      have h4 := c4 l hl (by rw [hlo]; exact hE.2.1) (by rw [hlo]; exact hv)
      rw [hlo, hlw] at h4
      rw [c2]
      exact h4
  have hinact : ∀ v, v ∉ activeNodeIdList data → dr v = INFINITY := by
    intro v hv
    rcases hchange v with ⟨he, _⟩ | ⟨ha, _⟩
    · rw [he]; exact hinv.inactive v hv
    · exact absurd ha hv
  have hps : ∀ v, v ≠ s → dr v < INFINITY → pr v ≠ none := by
    intro v hvs hv
    rcases hchange v with ⟨he1, he2⟩ | ⟨_, _, hp, _⟩
    · rw [he2]
      rw [he1] at hv
      exact hinv.prevSome v hvs hv
    · rw [hp]
      exact Option.some_ne_none u
  have hpd : ∀ v u0, pr v = some u0 → v ≠ s ∧ dr v < INFINITY ∧
      u0 ∈ addUniq st.visited u ∧
      ∃ wt, edgeRel data u0 v wt ∧ dr v = dr u0 + wt := by
    intro v u0 hp
    rcases hchange v with ⟨he1, he2⟩ | ⟨_, hb, hpu, wt, hE, heq, hlt⟩
    · rw [he2] at hp
      rcases hinv.prevData v u0 hp with ⟨hvs, hvf', hu0S, wt, hE, heq⟩
      refine ⟨hvs, by rwa [he1], mem_addUniq.mpr (Or.inl hu0S), wt, hE, ?_⟩
      rw [he1, (hvis_unch u0 hu0S).1]
      exact heq
    · rw [hpu] at hp
      injection hp with hp
      subst hp
      have hvs : v ≠ s := by
        intro h
        rw [h] at hlt
        rw [hinv.startDist] at hlt
        omega
      have hvfin : dr v < INFINITY := lt_of_lt_of_le hlt (hinv.cap v)
      refine ⟨hvs, hvfin, mem_addUniq.mpr (Or.inr rfl), wt, hE, ?_⟩
      rw [c2]
      exact heq
  exact ⟨hcap, hinv.startActive, hsd, hpart, hdisj, hnodup, hvo, hvf, hreach, hbnd,
    hinact, hps, hpd⟩

theorem dijkstraLoop_final (data : GraphData) (s : String) :
    ∀ (fuel : Nat) (st : DState) (steps : List SimulationStep),
      DInv data s st → st.unvisited.length ≤ fuel →
      DInv data s (dijkstraLoop (data.links.filter (fun l => l.active))
          (activeNodeIdList data) fuel st steps).2 ∧
      ((dijkstraLoop (data.links.filter (fun l => l.active))
          (activeNodeIdList data) fuel st steps).2.unvisited = [] ∨
        selectMin (dijkstraLoop (data.links.filter (fun l => l.active))
            (activeNodeIdList data) fuel st steps).2.unvisited
          (dijkstraLoop (data.links.filter (fun l => l.active))
            (activeNodeIdList data) fuel st steps).2.dist = none) := by
  intro fuel
  induction fuel with
  | zero =>
      intro st steps hinv hlen
      simp only [dijkstraLoop]
      have hnil : st.unvisited = [] := List.length_eq_zero.mp (Nat.le_zero.mp hlen)
      exact ⟨hinv, Or.inl hnil⟩
  | succ fuel ih =>
      intro st steps hinv hlen
      simp only [dijkstraLoop]
      by_cases hU : st.unvisited = []
      · rw [if_pos hU]
        exact ⟨hinv, Or.inl hU⟩
      · rw [if_neg hU]
        cases hSel : selectMin st.unvisited st.dist with
        | none => exact ⟨hinv, Or.inr hSel⟩
        | some u =>
            rcases selectMin_some_spec hSel with ⟨hmemU, hfin, _⟩
            simp only [if_neg (ne_of_lt hfin)]
            have hlen2 : (st.unvisited.erase u).length ≤ fuel := by
              have h1 := List.length_erase_of_mem hmemU
              have h2 := List.length_pos_of_mem hmemU
              omega
            exact ih _ _ (dinv_preserve data s st hinv hSel _ _ rfl) hlen2

theorem dinv_finalChar {data : GraphData} {s : String} {st : DState}
    (hinv : DInv data s st)
    (hexit : st.unvisited = [] ∨ selectMin st.unvisited st.dist = none) :
    FinalChar data s st.dist := by
  have hbound : ∀ v w, hasPath data s v w → st.dist v ≤ w := by
    intro v w hw
    rcases hw with ⟨hsA, ns, hwalk⟩
    rcases walk_exit st.visited hwalk with ⟨ns', hin⟩ | ⟨y, w₁, ns₁, hy, hin, hle⟩
    · exact dinv_restricted hinv hin
    · have hdy := dinv_restricted hinv hin
      have hymem : y ∈ activeNodeIdList data := by
        rcases walkVia_endpoint_active hin with rfl | h
        · exact hinv.startActive
        · exact h
      have hyU : y ∈ st.unvisited := by
        rcases (hinv.partition y).mpr hymem with hS | hU
        · exact absurd hS hy
        · exact hU
      rcases hexit with hUe | hsel
      · rw [hUe] at hyU
        exact absurd hyU (List.not_mem_nil y)
      · have h9 := selectMin_none_spec hsel y hyU
        have := hinv.cap v
        omega
  intro v
  refine ⟨hinv.cap v, ?_, ?_⟩
  · intro hfin
    exact ⟨⟨hinv.startActive, hinv.reach v hfin⟩, fun w hw => hbound v w hw⟩
  · intro hinf w hw
    have := hbound v w hw
    omega

theorem dinv_init (data : GraphData) (s : String) (hs : s ∈ activeNodeIdList data)
    (hnd : (nodeIds data).Nodup) :
    DInv data s ⟨initDist data s, initPrev data, [], initUnvisited data⟩ := by
  have hne : ∀ v, v ≠ s → initDist data s v = INFINITY := fun v hv =>
    initDist_ne_start data s v hv
  have hstart : initDist data s s = 0 := initDist_start data s hs hnd
  have hpart : ∀ x, (x ∈ ([] : List String) ∨ x ∈ initUnvisited data) ↔
      x ∈ activeNodeIdList data := by
    intro x
    rw [← mem_initUnvisited data x]
    simp
  have hreach : ∀ v, initDist data s v < INFINITY →
      Walk (edgeRel data) s v (initDist data s v) := by
    intro v hv
    by_cases hvs : v = s
    · subst hvs
      rw [hstart]
      exact ⟨[v], WalkVia.nil v⟩
    · rw [hne v hvs] at hv
      exact absurd hv (lt_irrefl _)
  have hinact : ∀ v, v ∉ activeNodeIdList data → initDist data s v = INFINITY := by
    intro v hv
    refine hne v ?_
    intro hvs
    subst hvs
    exact hv hs
  have hps : ∀ v, v ≠ s → initDist data s v < INFINITY → initPrev data v ≠ none := by
    intro v hvs hv
    rw [hne v hvs] at hv
    exact absurd hv (lt_irrefl _)
  have hpd : ∀ v u0, initPrev data v = some u0 → v ≠ s ∧
      initDist data s v < INFINITY ∧ u0 ∈ ([] : List String) ∧
      ∃ wt, edgeRel data u0 v wt ∧ initDist data s v = initDist data s u0 + wt := by
    intro v u0 hp
    rw [initPrev_eq_none data v] at hp
    cases hp
  exact ⟨fun v => initDist_le data s v, hs, hstart, hpart,
    fun x hx => absurd hx (List.not_mem_nil x), initUnvisited_nodup data,
    fun x hx => absurd hx (List.not_mem_nil x),
    fun x hx => absurd hx (List.not_mem_nil x), hreach,
    fun x hx => absurd hx (List.not_mem_nil x), hinact, hps, hpd⟩

theorem dijkstra_finalChar (data : GraphData) (s : String)
    (hnd : (nodeIds data).Nodup) :
    FinalChar data s ((finalStep AlgorithmType.DIJKSTRA data s).distances) := by
  by_cases hs : s ∈ activeNodeIdList data
  · rw [(finalStep_dijkstra_active data s hs).1]
    have H := dijkstraLoop_final data s (initUnvisited data).length
      ⟨initDist data s, initPrev data, [], initUnvisited data⟩
      [dijkstraInitStep data s] (dinv_init data s hs hnd) (le_refl _)
    exact dinv_finalChar H.1 H.2
  · rw [(finalStep_inactive AlgorithmType.DIJKSTRA data s hs).1]
    intro v
    have hv := initDist_const data s hs v
    refine ⟨le_of_eq hv, ?_, ?_⟩
    · intro hfin
      rw [hv] at hfin
      exact absurd hfin (lt_irrefl _)
    · intro _ w hw
      exact absurd hw.1 hs

/-! ## The Bellman-Ford invariant -/

theorem bfRelaxDir_cases (i wt : Nat) (lid f t : String)
    (acc : List SimulationStep × BState × Bool) :
    (¬(acc.2.1.dist f ≠ INFINITY ∧ acc.2.1.dist f + wt < acc.2.1.dist t) ∧
      bfRelaxDir i wt lid f t acc = acc) ∨
    ((acc.2.1.dist f ≠ INFINITY ∧ acc.2.1.dist f + wt < acc.2.1.dist t) ∧
      (bfRelaxDir i wt lid f t acc).2.1 =
        ⟨upd acc.2.1.dist t (acc.2.1.dist f + wt), upd acc.2.1.prev t (some f)⟩ ∧
      (bfRelaxDir i wt lid f t acc).2.2 = true) := by
  unfold bfRelaxDir
  by_cases h : acc.2.1.dist f ≠ INFINITY ∧ acc.2.1.dist f + wt < acc.2.1.dist t
  · rw [if_pos h]
    exact Or.inr ⟨h, rfl, rfl⟩
  · rw [if_neg h]
    exact Or.inl ⟨h, rfl⟩

theorem bfRelaxDir_mono (i wt : Nat) (lid f t : String)
    (acc : List SimulationStep × BState × Bool) :
    ∀ v, (bfRelaxDir i wt lid f t acc).2.1.dist v ≤ acc.2.1.dist v := by
  intro v
  rcases bfRelaxDir_cases i wt lid f t acc with ⟨_, heq⟩ | ⟨⟨hf, hlt⟩, hd, _⟩
  · rw [heq]
  · have hnewd : (bfRelaxDir i wt lid f t acc).2.1.dist =
        upd acc.2.1.dist t (acc.2.1.dist f + wt) := by rw [hd]
    rw [hnewd]
    by_cases hv : v = t
    · subst hv
      rw [upd_same]
      exact le_of_lt hlt
    · rw [upd_ne _ _ hv]

theorem bfRelaxDir_flag_false {i wt : Nat} {lid f t : String}
    {acc : List SimulationStep × BState × Bool}
    (h : (bfRelaxDir i wt lid f t acc).2.2 = false) :
    bfRelaxDir i wt lid f t acc = acc ∧
      ¬(acc.2.1.dist f ≠ INFINITY ∧ acc.2.1.dist f + wt < acc.2.1.dist t) := by
  rcases bfRelaxDir_cases i wt lid f t acc with ⟨hng, heq⟩ | ⟨_, _, hflag⟩
  · exact ⟨heq, hng⟩
  · rw [hflag] at h
    cases h

theorem binv_relaxDir (data : GraphData) (s : String) {i wt : Nat} {lid f t : String}
    {acc : List SimulationStep × BState × Bool} (hE : edgeRel data f t wt)
    (hinv : BInv data s acc.2.1) : BInv data s (bfRelaxDir i wt lid f t acc).2.1 := by
  rcases bfRelaxDir_cases i wt lid f t acc with ⟨_, heq⟩ | ⟨⟨hfInf, hlt⟩, hd, _⟩
  · rw [heq]
    exact hinv
  · have hft : f ≠ t := by
      intro h
      rw [h] at hlt
      omega
    have hts : t ≠ s := by
      intro h
      rw [h, hinv.startDist] at hlt
      omega
    have hnewd : (bfRelaxDir i wt lid f t acc).2.1.dist =
        upd acc.2.1.dist t (acc.2.1.dist f + wt) := by rw [hd]
    have hnewp : (bfRelaxDir i wt lid f t acc).2.1.prev =
        upd acc.2.1.prev t (some f) := by rw [hd]
    have hfFin : acc.2.1.dist f < INFINITY :=
      lt_of_le_of_ne (hinv.cap f) hfInf
    have hcap : ∀ v, (bfRelaxDir i wt lid f t acc).2.1.dist v ≤ INFINITY :=
      fun v => le_trans (bfRelaxDir_mono i wt lid f t acc v) (hinv.cap v)
    have hsd : (bfRelaxDir i wt lid f t acc).2.1.dist s = 0 := by
      rw [hnewd, upd_ne _ _ (Ne.symm hts)]
      exact hinv.startDist
    have hreach : ∀ v, (bfRelaxDir i wt lid f t acc).2.1.dist v < INFINITY →
        Walk (edgeRel data) s v ((bfRelaxDir i wt lid f t acc).2.1.dist v) := by
      intro v hv
      rw [hnewd]
      by_cases hvt : v = t
      · subst hvt
        rw [upd_same]
        rcases hinv.reach f hfFin with ⟨ns, hwalk⟩
        exact ⟨ns ++ [v], WalkVia.snoc hwalk trivial hE⟩
      · rw [upd_ne _ _ hvt]
        refine hinv.reach v ?_
        rw [hnewd, upd_ne _ _ hvt] at hv
        exact hv
    have hinact : ∀ v, v ∉ activeNodeIdList data →
        (bfRelaxDir i wt lid f t acc).2.1.dist v = INFINITY := by
      intro v hv
      have hvt : v ≠ t := by
        intro h
        rw [h] at hv
        exact hv hE.2.1
      rw [hnewd, upd_ne _ _ hvt]
      exact hinv.inactive v hv
    have hps : ∀ v, v ≠ s → (bfRelaxDir i wt lid f t acc).2.1.dist v < INFINITY →
        (bfRelaxDir i wt lid f t acc).2.1.prev v ≠ none := by
      intro v hvs hv
      rw [hnewp]
      by_cases hvt : v = t
      · subst hvt
        rw [upd_same]
        exact Option.some_ne_none f
      · rw [upd_ne _ _ hvt]
        refine hinv.prevSome v hvs ?_
        rw [hnewd, upd_ne _ _ hvt] at hv
        exact hv
    have hpd : ∀ v u0, (bfRelaxDir i wt lid f t acc).2.1.prev v = some u0 →
        v ≠ s ∧ (bfRelaxDir i wt lid f t acc).2.1.dist v < INFINITY ∧
        ∃ wt0, edgeRel data u0 v wt0 ∧
          (bfRelaxDir i wt lid f t acc).2.1.dist u0 + wt0 ≤
            (bfRelaxDir i wt lid f t acc).2.1.dist v := by
      intro v u0 hp
      rw [hnewp] at hp
      by_cases hvt : v = t
      · subst hvt
        rw [upd_same] at hp
        injection hp with hp
        subst hp
        refine ⟨hts, ?_, wt, hE, ?_⟩
        · rw [hnewd, upd_same]
          exact lt_of_lt_of_le hlt (hinv.cap v)
        · rw [hnewd, upd_same, upd_ne _ _ hft]
      · rw [upd_ne _ _ hvt] at hp
        rcases hinv.prevData v u0 hp with ⟨hvs, hvf, wt0, hE0, hle⟩
        refine ⟨hvs, ?_, wt0, hE0, ?_⟩
        · rw [hnewd, upd_ne _ _ hvt]
          exact hvf
        · have hm2 : upd acc.2.1.dist t (acc.2.1.dist f + wt) u0 ≤ acc.2.1.dist u0 := by
            by_cases hu0t : u0 = t
            · subst hu0t
              rw [upd_same]
              exact le_of_lt hlt
            · rw [upd_ne _ _ hu0t]
          rw [hnewd, upd_ne _ _ hvt]
          omega
    exact ⟨hcap, hinv.startActive, hsd, hreach, hinact, hps, hpd⟩

theorem bfScan_mono (aIds : List String) (i : Nat) :
    ∀ (ls : List Link) (acc : List SimulationStep × BState × Bool) (v : String),
      (bfScan aIds i ls acc).2.1.dist v ≤ acc.2.1.dist v := by
  intro ls
  induction ls with
  | nil => intro acc v; exact le_refl _
  | cons l rest ih =>
      intro acc v
      simp only [bfScan]
      by_cases h : l.source ∈ aIds ∧ l.target ∈ aIds
      · rw [if_pos h]
        refine le_trans (ih _ v) ?_
        refine le_trans (bfRelaxDir_mono _ _ _ _ _ _ v) ?_
        exact bfRelaxDir_mono _ _ _ _ _ _ v
      · rw [if_neg h]
        exact ih _ v

theorem bfScan_binv (data : GraphData) (s : String) (i : Nat) :
    ∀ (ls : List Link) (acc : List SimulationStep × BState × Bool),
      (∀ l ∈ ls, l ∈ data.links ∧ l.active = true) →
      BInv data s acc.2.1 →
      BInv data s (bfScan (activeNodeIdList data) i ls acc).2.1 := by
  intro ls
  induction ls with
  | nil => intro acc _ hinv; exact hinv
  | cons l rest ih =>
      intro acc hls hinv
      simp only [bfScan]
      by_cases h : l.source ∈ activeNodeIdList data ∧ l.target ∈ activeNodeIdList data
      · rw [if_pos h]
        have hlm := hls l (List.mem_cons_self l rest)
        have hE1 : edgeRel data l.source l.target l.weight :=
          ⟨h.1, h.2, l, hlm.1, hlm.2, rfl, Or.inl ⟨rfl, rfl⟩⟩
        have hE2 : edgeRel data l.target l.source l.weight :=
          ⟨h.2, h.1, l, hlm.1, hlm.2, rfl, Or.inr ⟨rfl, rfl⟩⟩
        refine ih _ (fun m hm => hls m (List.mem_cons_of_mem l hm)) ?_
        exact binv_relaxDir data s hE2 (binv_relaxDir data s hE1 hinv)
      · rw [if_neg h]
        exact ih _ (fun m hm => hls m (List.mem_cons_of_mem l hm)) hinv

theorem bfScan_relax (aIds : List String) (i : Nat) :
    ∀ (ls : List Link) (acc : List SimulationStep × BState × Bool),
      ∀ l ∈ ls, l.source ∈ aIds → l.target ∈ aIds →
        (acc.2.1.dist l.source < INFINITY →
          (bfScan aIds i ls acc).2.1.dist l.target ≤ acc.2.1.dist l.source + l.weight) ∧
        (acc.2.1.dist l.target < INFINITY →
          (bfScan aIds i ls acc).2.1.dist l.source ≤ acc.2.1.dist l.target + l.weight) := by
  intro ls
  induction ls with
  | nil =>
      intro acc l hl
      exact absurd hl (List.not_mem_nil l)
  | cons l0 rest ih =>
      intro acc l hl hsrc htgt
      rcases List.mem_cons.mp hl with rfl | hl'
      · -- `l` is the link scanned first
        have hpos : l.source ∈ aIds ∧ l.target ∈ aIds := ⟨hsrc, htgt⟩
        simp only [bfScan, if_pos hpos]
        constructor
        · intro hfin
          have h1 : (bfRelaxDir i l.weight l.id l.source l.target acc).2.1.dist l.target ≤
              acc.2.1.dist l.source + l.weight := by
            rcases bfRelaxDir_cases i l.weight l.id l.source l.target acc with
              ⟨hng, heq⟩ | ⟨⟨hf, hlt⟩, hd, _⟩
            · rw [heq]
              rw [not_and_or, not_not, not_lt] at hng
              rcases hng with hinf | hle
              · exact absurd hinf (ne_of_lt hfin)
              · exact hle
            · have hnewd : (bfRelaxDir i l.weight l.id l.source l.target acc).2.1.dist =
                  upd acc.2.1.dist l.target (acc.2.1.dist l.source + l.weight) := by rw [hd]
              rw [hnewd, upd_same]
          refine le_trans (le_trans (bfScan_mono aIds i rest _ l.target) ?_) h1
          exact bfRelaxDir_mono _ _ _ _ _ _ l.target
        · intro hfin
          -- the second direction runs on the state after the first
          have hm1 := bfRelaxDir_mono i l.weight l.id l.source l.target acc l.target
          have h2 : (bfRelaxDir i l.weight l.id l.target l.source
                (bfRelaxDir i l.weight l.id l.source l.target acc)).2.1.dist l.source ≤
              acc.2.1.dist l.target + l.weight := by
            rcases bfRelaxDir_cases i l.weight l.id l.target l.source
              (bfRelaxDir i l.weight l.id l.source l.target acc) with
              ⟨hng, heq⟩ | ⟨⟨hf, hlt⟩, hd, _⟩
            · rw [heq]
              rw [not_and_or, not_not, not_lt] at hng
              rcases hng with hinf | hle
              · exact absurd hinf (ne_of_lt (lt_of_le_of_lt hm1 hfin))
              · have hm2 := bfRelaxDir_mono i l.weight l.id l.source l.target acc l.source
                omega
            · have hnewd : (bfRelaxDir i l.weight l.id l.target l.source
                  (bfRelaxDir i l.weight l.id l.source l.target acc)).2.1.dist =
                  upd (bfRelaxDir i l.weight l.id l.source l.target acc).2.1.dist l.source
                    ((bfRelaxDir i l.weight l.id l.source l.target acc).2.1.dist l.target
                      + l.weight) := by rw [hd]
              rw [hnewd, upd_same]
              omega
          exact le_trans (bfScan_mono aIds i rest _ l.source) h2
      · -- `l` is scanned later; compose with monotonicity of the prefix
        by_cases h : l0.source ∈ aIds ∧ l0.target ∈ aIds
        · simp only [bfScan, if_pos h]
          have hm1 := bfRelaxDir_mono i l0.weight l0.id l0.source l0.target acc l.source
          have hm2 := bfRelaxDir_mono i l0.weight l0.id l0.target l0.source
            (bfRelaxDir i l0.weight l0.id l0.source l0.target acc) l.source
          have hm1t := bfRelaxDir_mono i l0.weight l0.id l0.source l0.target acc l.target
          have hm2t := bfRelaxDir_mono i l0.weight l0.id l0.target l0.source
            (bfRelaxDir i l0.weight l0.id l0.source l0.target acc) l.target
          rcases ih (bfRelaxDir i l0.weight l0.id l0.target l0.source
            (bfRelaxDir i l0.weight l0.id l0.source l0.target acc)) l hl' hsrc htgt with
            ⟨ha, hb⟩
          constructor
          · intro hfin
            refine le_trans (ha (by omega)) (by omega)
          · intro hfin
            refine le_trans (hb (by omega)) (by omega)
        · simp only [bfScan, if_neg h]
          exact ih acc l hl' hsrc htgt

theorem bfScan_flag_false (aIds : List String) (i : Nat) :
    ∀ (ls : List Link) (acc : List SimulationStep × BState × Bool),
      (bfScan aIds i ls acc).2.2 = false →
      bfScan aIds i ls acc = acc ∧
      ∀ l ∈ ls, l.source ∈ aIds → l.target ∈ aIds →
        ¬(acc.2.1.dist l.source ≠ INFINITY ∧
          acc.2.1.dist l.source + l.weight < acc.2.1.dist l.target) ∧
        ¬(acc.2.1.dist l.target ≠ INFINITY ∧
          acc.2.1.dist l.target + l.weight < acc.2.1.dist l.source) := by
  intro ls
  induction ls with
  | nil =>
      intro acc h
      exact ⟨rfl, fun l hl => absurd hl (List.not_mem_nil l)⟩
  | cons l0 rest ih =>
      intro acc hflag
      by_cases h : l0.source ∈ aIds ∧ l0.target ∈ aIds
      · rw [show bfScan aIds i (l0 :: rest) acc = bfScan aIds i rest
            (bfRelaxDir i l0.weight l0.id l0.target l0.source
              (bfRelaxDir i l0.weight l0.id l0.source l0.target acc)) by
          simp only [bfScan, if_pos h]] at hflag ⊢
        rcases ih _ hflag with ⟨heq, hrest⟩
        have hflag2 : (bfRelaxDir i l0.weight l0.id l0.target l0.source
            (bfRelaxDir i l0.weight l0.id l0.source l0.target acc)).2.2 = false := by
          rw [heq] at hflag
          exact hflag
        rcases bfRelaxDir_flag_false hflag2 with ⟨heq2, hng2⟩
        have hflag1 : (bfRelaxDir i l0.weight l0.id l0.source l0.target acc).2.2 = false := by
          rw [heq2] at hflag2
          exact hflag2
        rcases bfRelaxDir_flag_false hflag1 with ⟨heq1, hng1⟩
        rw [heq2, heq1] at heq
        rw [heq1] at hng2
        constructor
        · rw [heq2, heq1]
          exact heq
        · intro l hl hsrc htgt
          rcases List.mem_cons.mp hl with rfl | hl'
          · exact ⟨hng1, hng2⟩
          · have := hrest l hl' hsrc htgt
            rw [heq2, heq1] at this
            exact this
      · rw [show bfScan aIds i (l0 :: rest) acc = bfScan aIds i rest acc by
          simp only [bfScan, if_neg h]] at hflag ⊢
        rcases ih _ hflag with ⟨heq, hrest⟩
        refine ⟨heq, ?_⟩
        intro l hl hsrc htgt
        rcases List.mem_cons.mp hl with rfl | hl'
        · exact absurd ⟨hsrc, htgt⟩ h
        · exact hrest l hl' hsrc htgt

theorem bfRound_bounded (data : GraphData) (s : String) (i : Nat)
    (steps : List SimulationStep) (st : BState) (k : Nat)
    (hbnd : BoundedOK data s k st.dist) :
    BoundedOK data s (k + 1)
      (bfRound (data.links.filter (fun l => l.active)) (activeNodeIdList data) i
        steps st).2.1.dist := by
  intro v w ns hwalk
  unfold bfRound
  cases hwalk with
  | nil =>
      intro _ _
      have h0 : st.dist s ≤ 0 :=
        hbnd s 0 [s] (WalkVia.nil s) (by simp) (by simp [INFINITY])
      have hm : (bfScan (activeNodeIdList data) i
          (data.links.filter (fun l => l.active)) (steps, st, false)).2.1.dist s ≤
          st.dist s := bfScan_mono _ i _ _ s
      exact le_trans hm h0
  | @snoc b cdummy w' wt ns' hw hA hE =>
      intro hlen hwfin
      have hlen' : ns'.length ≤ k + 1 := by
        simp only [List.length_append, List.length_cons] at hlen
        omega
      have hw1fin : w' < INFINITY := by omega
      have hdb : st.dist b ≤ w' := hbnd b w' ns' hw hlen' hw1fin
      have hdbfin : st.dist b < INFINITY := lt_of_le_of_lt hdb hw1fin
      rcases hE with ⟨hab, hac, l, hl, hact, hwt, hends⟩
      have hlmem : l ∈ data.links.filter (fun l => l.active) :=
        List.mem_filter.mpr ⟨hl, by simpa using hact⟩
      rcases hends with ⟨h1, h2⟩ | ⟨h1, h2⟩
      · -- l.source = b, l.target = c
        have hR : st.dist b < INFINITY →
            (bfScan (activeNodeIdList data) i (data.links.filter (fun l => l.active))
              (steps, st, false)).2.1.dist v ≤ st.dist b + l.weight := by
          have h := (bfScan_relax (activeNodeIdList data) i
            (data.links.filter (fun l => l.active)) (steps, st, false) l hlmem
            (by rw [h1]; exact hab) (by rw [h2]; exact hac)).1
          rw [h1, h2] at h
          exact h
        have hfin := hR hdbfin
        rw [hwt] at hfin
        omega
      · -- l.source = c, l.target = b
        have hR : st.dist b < INFINITY →
            (bfScan (activeNodeIdList data) i (data.links.filter (fun l => l.active))
              (steps, st, false)).2.1.dist v ≤ st.dist b + l.weight := by
          have h := (bfScan_relax (activeNodeIdList data) i
            (data.links.filter (fun l => l.active)) (steps, st, false) l hlmem
            (by rw [h1]; exact hac) (by rw [h2]; exact hab)).2
          rw [h1, h2] at h
          exact h
        have hfin := hR hdbfin
        rw [hwt] at hfin
        omega

theorem fixpoint_bound (data : GraphData) (s : String) (d : String → Nat)
    (hfix : RelaxFixpoint data d) (hs0 : d s = 0) :
    ∀ {v : String} {w : Nat} {ns : List String},
      WalkVia (edgeRel data) (fun _ => True) s v w ns → w < INFINITY → d v ≤ w := by
  intro v w ns hwalk
  induction hwalk with
  | nil => intro _; exact le_of_eq hs0
  | @snoc b c' w' wt ns' hw hA hE ih =>
      intro hwfin
      have hw1fin : w' < INFINITY := by omega
      have hdb := ih hw1fin
      have hdbne : d b ≠ INFINITY := ne_of_lt (lt_of_le_of_lt hdb hw1fin)
      have := hfix b c' wt hE hdbne
      omega

theorem binv_init (data : GraphData) (s : String) (hs : s ∈ activeNodeIdList data)
    (hnd : (nodeIds data).Nodup) :
    BInv data s ⟨initDist data s, initPrev data⟩ := by
  have hinv := dinv_init data s hs hnd
  exact ⟨hinv.cap, hinv.startActive, hinv.startDist, hinv.reach, hinv.inactive,
    hinv.prevSome, fun v u0 hp => by
      rw [show (⟨initDist data s, initPrev data⟩ : BState).prev = initPrev data from rfl,
        initPrev_eq_none data v] at hp
      cases hp⟩

theorem boundedOK_init (data : GraphData) (s : String)
    (hs : s ∈ activeNodeIdList data) (hnd : (nodeIds data).Nodup) :
    BoundedOK data s 0 (initDist data s) := by
  intro v w ns hwalk hlen _
  cases hwalk with
  | nil =>
      exact le_of_eq (initDist_start data s hs hnd)
  | @snoc b c' w' wt ns' hw hA hE =>
      have hne := (walkVia_shape hw).1
      have : 1 ≤ ns'.length := List.length_pos.mpr hne
      simp only [List.length_append, List.length_cons] at hlen
      omega

theorem bfIter_spec (data : GraphData) (s : String) :
    ∀ (fuel i : Nat) (steps : List SimulationStep) (st : BState) (k : Nat),
      BInv data s st → BoundedOK data s k st.dist →
      BInv data s (bfIter (data.links.filter (fun l => l.active))
          (activeNodeIdList data) fuel i steps st).2 ∧
      (BoundedOK data s (k + fuel)
          (bfIter (data.links.filter (fun l => l.active))
            (activeNodeIdList data) fuel i steps st).2.dist ∨
        RelaxFixpoint data
          (bfIter (data.links.filter (fun l => l.active))
            (activeNodeIdList data) fuel i steps st).2.dist) := by
  intro fuel
  induction fuel with
  | zero =>
      intro i steps st k hinv hbnd
      exact ⟨hinv, Or.inl hbnd⟩
  | succ fuel ih =>
      intro i steps st k hinv hbnd
      simp only [bfIter]
      by_cases hch : (bfRound (data.links.filter (fun l => l.active))
          (activeNodeIdList data) i steps st).2.2 = true
      · rw [if_pos hch]
        have hinv' : BInv data s (bfRound (data.links.filter (fun l => l.active))
            (activeNodeIdList data) i steps st).2.1 := by
          unfold bfRound
          exact bfScan_binv data s i _ _
            (fun l hl => by
              have := List.mem_filter.mp hl
              exact ⟨this.1, by simpa using this.2⟩) hinv
        have hbnd' := bfRound_bounded data s i steps st k hbnd
        rcases ih (i + 1) _ _ (k + 1) hinv' hbnd' with ⟨hi1, hi2⟩
        refine ⟨hi1, ?_⟩
        rcases hi2 with hb | hf
        · left
          have harith : k + 1 + fuel = k + (fuel + 1) := by omega
          rwa [harith] at hb
        · right
          exact hf
      · rw [if_neg hch]
        have hflag : (bfRound (data.links.filter (fun l => l.active))
            (activeNodeIdList data) i steps st).2.2 = false := by
          cases h : (bfRound (data.links.filter (fun l => l.active))
              (activeNodeIdList data) i steps st).2.2
          · rfl
          · exact absurd h hch
        rcases bfScan_flag_false (activeNodeIdList data) i
          (data.links.filter (fun l => l.active)) (steps, st, false) hflag with ⟨heq, hng⟩
        have hst : (bfRound (data.links.filter (fun l => l.active))
            (activeNodeIdList data) i steps st).2.1 = st := by
          unfold bfRound
          rw [heq]
        rw [hst]
        refine ⟨hinv, Or.inr ?_⟩
        intro u v wt hE hune
        rcases hE with ⟨hau, hav, l, hl, hact, hwt, hends⟩
        have hlmem : l ∈ data.links.filter (fun l => l.active) :=
          List.mem_filter.mpr ⟨hl, by simpa using hact⟩
        rcases hends with ⟨h1, h2⟩ | ⟨h1, h2⟩
        · have := (hng l hlmem (by rw [h1]; exact hau) (by rw [h2]; exact hav)).1
          rw [h1, h2, hwt] at this
          rw [not_and_or, not_not, not_lt] at this
          rcases this with hinf | hle
          · exact absurd hinf hune
          · exact hle
        · have := (hng l hlmem (by rw [h1]; exact hav) (by rw [h2]; exact hau)).2
          rw [h1, h2, hwt] at this
          rw [not_and_or, not_not, not_lt] at this
          rcases this with hinf | hle
          · exact absurd hinf hune
          · exact hle

theorem activeNodeIdList_nodup (data : GraphData) (hnd : (nodeIds data).Nodup) :
    (activeNodeIdList data).Nodup := by
  unfold activeNodeIdList
  have hsub : ((data.nodes.filter (fun n => n.active)).map (fun n => n.id)).Sublist
      (data.nodes.map (fun n => n.id)) :=
    List.Sublist.map (fun n => n.id) (List.filter_sublist data.nodes)
  exact List.Nodup.sublist hsub (by simpa [nodeIds] using hnd)

theorem bellman_finalChar (data : GraphData) (s : String)
    (hnd : (nodeIds data).Nodup) :
    FinalChar data s ((finalStep AlgorithmType.BELLMAN_FORD data s).distances) := by
  by_cases hs : s ∈ activeNodeIdList data
  · rw [(finalStep_bellman_active data s hs).1]
    have H := bfIter_spec data s ((data.nodes.filter (fun n => n.active)).length - 1) 0
      [bellmanInitStep data s] ⟨initDist data s, initPrev data⟩ 0
      (binv_init data s hs hnd) (boundedOK_init data s hs hnd)
    have hVpos : 1 ≤ (data.nodes.filter (fun n => n.active)).length := by
      rcases mem_activeNodeIdList.mp hs with ⟨n, hn, ha, hid⟩
      have hmem : n ∈ data.nodes.filter (fun n => n.active) :=
        List.mem_filter.mpr ⟨hn, by simpa using ha⟩
      exact List.length_pos.mpr (List.ne_nil_of_mem hmem)
    have hcomplete : ∀ v w, hasPath data s v w → w < INFINITY →
        (bellmanRun data s).2.dist v ≤ w := by
      intro v w hw hwfin
      rcases hw with ⟨hsA, ns, hwalk⟩
      rcases H.2 with hb | hf
      · rcases walkVia_dedup ns.length (le_refl _) hwalk with
          ⟨w', ns', hle, hnd', hwalk'⟩
        have hsub : ∀ x ∈ ns', x ∈ activeNodeIdList data := by
          intro x hx
          rcases walkVia_nodes_active hwalk' x hx with rfl | h
          · exact hsA
          · exact h
        have hlen : ns'.length ≤ (data.nodes.filter (fun n => n.active)).length := by
          have h1 := (List.Nodup.subperm hnd' hsub).length_le
          have h2 : (activeNodeIdList data).length =
              (data.nodes.filter (fun n => n.active)).length := by
            unfold activeNodeIdList
            exact List.length_map _ _
          omega
        have hres : (bellmanRun data s).2.dist v ≤ w' :=
          hb v w' ns' hwalk' (by omega) (by omega)
        omega
      · exact fixpoint_bound data s _ hf H.1.startDist hwalk hwfin
    intro v
    refine ⟨H.1.cap v, ?_, ?_⟩
    · intro hfin
      refine ⟨⟨hs, H.1.reach v hfin⟩, ?_⟩
      intro w hw
      by_cases hwf : w < INFINITY
      · exact hcomplete v w hw hwf
      · have := H.1.cap v
        omega
    · intro hinf w hw
      by_cases hwf : w < INFINITY
      · have := hcomplete v w hw hwf
        omega
      · omega
  · rw [(finalStep_inactive AlgorithmType.BELLMAN_FORD data s hs).1]
    intro v
    have hv := initDist_const data s hs v
    refine ⟨le_of_eq hv, ?_, ?_⟩
    · intro hfin
      rw [hv] at hfin
      exact absurd hfin (lt_irrefl _)
    · intro _ w hw
      exact absurd hw.1 hs

/-! ## Claims C1 and C3: shortest-path correctness and agreement -/

theorem finalChar_unique {data : GraphData} {s : String} {d1 d2 : String → Nat}
    (h1 : FinalChar data s d1) (h2 : FinalChar data s d2) : d1 = d2 := by
  funext v
  rcases h1 v with ⟨c1, f1, i1⟩
  rcases h2 v with ⟨c2, f2, i2⟩
  by_cases hd1 : d1 v < INFINITY
  · rcases f1 hd1 with ⟨hp1, hm1⟩
    by_cases hd2 : d2 v < INFINITY
    · rcases f2 hd2 with ⟨hp2, hm2⟩
      exact le_antisymm (hm1 _ hp2) (hm2 _ hp1)
    · have he2 : d2 v = INFINITY := le_antisymm c2 (not_lt.mp hd2)
      have := i2 he2 _ hp1
      omega
  · have he1 : d1 v = INFINITY := le_antisymm c1 (not_lt.mp hd1)
    by_cases hd2 : d2 v < INFINITY
    · rcases f2 hd2 with ⟨hp2, hm2⟩
      have := i1 he1 _ hp2
      omega
    · have he2 : d2 v = INFINITY := le_antisymm c2 (not_lt.mp hd2)
      rw [he1, he2]

theorem capGraph_path_mod :
    ∀ (v : String) (w : Nat) (ns : List String),
      WalkVia (edgeRel capGraph) (fun _ => True) "A" v w ns → 10000 ∣ w := by
  intro v w ns h
  induction h with
  | nil => exact dvd_zero _
  | snoc hw hA hE ih =>
      rcases hE with ⟨_, _, l, hl, hact, hwt, hends⟩
      have hl' : l = ⟨"L", "A", "B", 10000, true⟩ := by
        simpa [capGraph] using hl
      rw [← hwt, hl']
      exact dvd_add ih (dvd_refl 10000)

/-- Claim C1, counterexample: on `capGraph` (single active link of weight
10000 > sentinel), the final Dijkstra distance of B is the sentinel 9999 even
though B is reachable, and 9999 is not the weight of any path to B — so the
final entry is neither the minimum path weight nor justified by
unreachability. -/
theorem shortest_path_cap_counterexample :
    (finalStep AlgorithmType.DIJKSTRA capGraph "A").distances "B" = INFINITY ∧
    hasPath capGraph "A" "B" 10000 ∧
    ¬ hasPath capGraph "A" "B"
      ((finalStep AlgorithmType.DIJKSTRA capGraph "A").distances "B") := by
  refine ⟨by decide, ?_, ?_⟩
  · refine ⟨by decide, ⟨["A", "B"], ?_⟩⟩
    have hE : edgeRel capGraph "A" "B" 10000 := by
      refine ⟨by decide, by decide, ⟨"L", "A", "B", 10000, true⟩, by decide, rfl, rfl, ?_⟩
      exact Or.inl ⟨rfl, rfl⟩
    exact WalkVia.snoc (WalkVia.nil "A") trivial hE
  · intro h
    rcases h with ⟨_, ns, hwalk⟩
    have hd := capGraph_path_mod _ _ _ hwalk
    have he : (finalStep AlgorithmType.DIJKSTRA capGraph "A").distances "B" = 9999 := by
      decide
    rw [he] at hd
    omega

/-- Claim C1 (amended): for every topology with distinct node ids and every
start node, the final `distances` map of either variant satisfies: every entry
is at most the sentinel; every entry below the sentinel is the minimum total
weight over paths from the start using only active nodes and links; and an
entry equals the sentinel exactly when no such path of weight below the
sentinel exists (in particular whenever the node is unreachable). -/
theorem shortest_path_correct (data : GraphData) (s : String)
    (hnd : (nodeIds data).Nodup) (t : AlgorithmType) :
    FinalChar data s ((finalStep t data s).distances) := by
  cases t
  · exact dijkstra_finalChar data s hnd
  · exact bellman_finalChar data s hnd

/-- Witness for C1 at a concrete input. -/
theorem shortest_path_correct_witness :
    (nodeIds INITIAL_GRAPH).Nodup ∧
    FinalChar INITIAL_GRAPH "A"
      ((finalStep AlgorithmType.DIJKSTRA INITIAL_GRAPH "A").distances) :=
  ⟨by decide, shortest_path_correct INITIAL_GRAPH "A" (by decide) AlgorithmType.DIJKSTRA⟩

/-- Claim C3: on any topology with distinct node ids and strictly positive
link weights, the Dijkstra and Bellman-Ford variants produce identical final
`distances` maps, hence classify exactly the same nodes as unreachable. -/
theorem dijkstra_bellman_agree (data : GraphData) (s : String)
    (hnd : (nodeIds data).Nodup) (hw : ∀ l ∈ data.links, 0 < l.weight) :
    (finalStep AlgorithmType.DIJKSTRA data s).distances =
      (finalStep AlgorithmType.BELLMAN_FORD data s).distances ∧
    ∀ v, ((finalStep AlgorithmType.DIJKSTRA data s).distances v = INFINITY ↔
      (finalStep AlgorithmType.BELLMAN_FORD data s).distances v = INFINITY) := by
  have heq := finalChar_unique (dijkstra_finalChar data s hnd)
    (bellman_finalChar data s hnd)
  exact ⟨heq, fun v => by rw [heq]⟩

/-- Witness for C3 at a concrete input. -/
theorem dijkstra_bellman_agree_witness :
    (nodeIds INITIAL_GRAPH).Nodup ∧ (∀ l ∈ INITIAL_GRAPH.links, 0 < l.weight) ∧
    ((finalStep AlgorithmType.DIJKSTRA INITIAL_GRAPH "A").distances =
      (finalStep AlgorithmType.BELLMAN_FORD INITIAL_GRAPH "A").distances ∧
    ∀ v, ((finalStep AlgorithmType.DIJKSTRA INITIAL_GRAPH "A").distances v = INFINITY ↔
      (finalStep AlgorithmType.BELLMAN_FORD INITIAL_GRAPH "A").distances v = INFINITY)) :=
  ⟨by decide, by decide, dijkstra_bellman_agree INITIAL_GRAPH "A" (by decide) (by decide)⟩

/-! ## Converged tables and predecessor chains -/

theorem goodState_final (data : GraphData) (s : String) (t : AlgorithmType)
    (hnd : (nodeIds data).Nodup) (hs : s ∈ activeNodeIdList data) :
    GoodState data s ((finalStep t data s).distances) ((finalStep t data s).previous) := by
  cases t with
  | DIJKSTRA =>
      rw [(finalStep_dijkstra_active data s hs).1, (finalStep_dijkstra_active data s hs).2]
      have H := dijkstraLoop_final data s (initUnvisited data).length
        ⟨initDist data s, initPrev data, [], initUnvisited data⟩
        [dijkstraInitStep data s] (dinv_init data s hs hnd) (le_refl _)
      refine ⟨fun v => H.1.cap v, H.1.startDist, hs, ?_⟩
      intro v hvs hvf
      cases hpv : (dijkstraRun data s).2.prev v with
      | none => exact absurd hpv (H.1.prevSome v hvs hvf)
      | some u =>
          rcases H.1.prevData v u hpv with ⟨_, _, huS, wt, hE, heq⟩
          exact ⟨u, wt, rfl, hE, heq, H.1.visitedFin u huS⟩
  | BELLMAN_FORD =>
      rw [(finalStep_bellman_active data s hs).1, (finalStep_bellman_active data s hs).2]
      have H := bfIter_spec data s ((data.nodes.filter (fun n => n.active)).length - 1) 0
        [bellmanInitStep data s] ⟨initDist data s, initPrev data⟩ 0
        (binv_init data s hs hnd) (boundedOK_init data s hs hnd)
      have HF := bellman_finalChar data s hnd
      rw [(finalStep_bellman_active data s hs).1] at HF
      refine ⟨fun v => H.1.cap v, H.1.startDist, hs, ?_⟩
      intro v hvs hvf
      cases hpv : (bellmanRun data s).2.prev v with
      | none => exact absurd hpv (H.1.prevSome v hvs hvf)
      | some u =>
          rcases H.1.prevData v u hpv with ⟨_, _, wt, hE, hle⟩
          have hcap : (bellmanRun data s).2.dist v < INFINITY := hvf
          have hle2 : (bellmanRun data s).2.dist u + wt ≤ (bellmanRun data s).2.dist v := hle
          have hufin : (bellmanRun data s).2.dist u < INFINITY := by omega
          have hpath : hasPath data s v ((bellmanRun data s).2.dist u + wt) := by
            rcases H.1.reach u hufin with ⟨ns, hwalk⟩
            exact ⟨hs, ns ++ [v], WalkVia.snoc hwalk trivial hE⟩
          rcases HF v with ⟨_, hmin, _⟩
          rcases hmin hvf with ⟨_, hmin2⟩
          have hge := hmin2 _ hpath
          exact ⟨u, wt, rfl, hE, le_antisymm hge hle2, hufin⟩

theorem pchain_exists (data : GraphData) (s : String) (d : String → Nat)
    (p : String → Option String) (hg : GoodState data s d p)
    (hwpos : ∀ l ∈ data.links, 0 < l.weight) :
    ∀ (n : Nat) (v : String), d v ≤ n → d v < INFINITY →
      ∃ chain, PChain data s d p v chain := by
  intro n
  induction n with
  | zero =>
      intro v hle hfin
      by_cases hvs : v = s
      · refine ⟨[v], ?_⟩
        rw [hvs]
        exact PChain.nil
      · rcases hg.2.2.2 v hvs hfin with ⟨u, wt, _, hE, heq, _⟩
        rcases hE.2.2 with ⟨l, hl, _, hlw, _⟩
        have hw := hwpos l hl
        omega
  | succ n ih =>
      intro v hle hfin
      by_cases hvs : v = s
      · refine ⟨[v], ?_⟩
        rw [hvs]
        exact PChain.nil
      · rcases hg.2.2.2 v hvs hfin with ⟨u, wt, hp, hE, heq, hufin⟩
        have hwt : 0 < wt := by
          rcases hE.2.2 with ⟨l, hl, _, hlw, _⟩
          have hw := hwpos l hl
          omega
        rcases ih u (by omega) hufin with ⟨rest, hrest⟩
        exact ⟨v :: rest, PChain.cons hvs hp ⟨wt, hE, heq⟩ hrest⟩

theorem pchain_props (data : GraphData) (s : String) (d : String → Nat)
    (p : String → Option String) (hwpos : ∀ l ∈ data.links, 0 < l.weight)
    (hs : s ∈ activeNodeIdList data) :
    ∀ {v : String} {chain : List String}, PChain data s d p v chain →
      chain.head? = some v ∧ chain.getLast? = some s ∧ chain.Nodup ∧
      (∀ x ∈ chain, x ∈ activeNodeIdList data ∧ d x ≤ d v) := by
  intro v chain hchain
  induction hchain with
  | nil =>
      refine ⟨rfl, rfl, List.nodup_singleton s, ?_⟩
      intro x hx
      rcases List.mem_singleton.mp hx with rfl
      exact ⟨hs, le_refl _⟩
  | @cons v' u rest hvs hp hEw hrest ih =>
      rcases hEw with ⟨wt, hE, heq⟩
      have hwt : 0 < wt := by
        rcases hE.2.2 with ⟨l, hl, _, hlw, _⟩
        have hw := hwpos l hl
        omega
      rcases ih with ⟨ih1, ih2, ih3, ih4⟩
      have hne : rest ≠ [] := by
        intro h
        rw [h] at ih1
        cases ih1
      obtain ⟨r, rs, rfl⟩ : ∃ r rs, rest = r :: rs := by
        cases rest with
        | nil => exact absurd rfl hne
        | cons r rs => exact ⟨r, rs, rfl⟩
      refine ⟨rfl, ?_, ?_, ?_⟩
      · rw [List.getLast?_cons_cons]
        exact ih2
      · refine List.nodup_cons.mpr ⟨?_, ih3⟩
        intro hmem
        have hd := (ih4 v' hmem).2
        omega
      · intro x hx
        rcases List.mem_cons.mp hx with rfl | hx'
        · exact ⟨hE.2.1, le_refl _⟩
        · rcases ih4 x hx' with ⟨ha, hd⟩
          exact ⟨ha, by omega⟩

theorem pchain_length_le (data : GraphData) (s : String) (d : String → Nat)
    (p : String → Option String) (hwpos : ∀ l ∈ data.links, 0 < l.weight)
    (hs : s ∈ activeNodeIdList data) {v : String} {chain : List String}
    (hchain : PChain data s d p v chain) : chain.length ≤ data.nodes.length := by
  rcases pchain_props data s d p hwpos hs hchain with ⟨_, _, hnodup, hsub⟩
  have h1 : chain.length ≤ (activeNodeIdList data).length :=
    (List.Nodup.subperm hnodup (fun x hx => (hsub x hx).1)).length_le
  have h2 : (activeNodeIdList data).length ≤ data.nodes.length := by
    unfold activeNodeIdList
    rw [List.length_map]
    exact List.length_filter_le _ _
  omega

theorem findLinkBetween_edge (data : GraphData) {u v : String} {wt : Nat}
    (hE : edgeRel data u v wt) (hpair : pairUnique data) :
    ∃ lf, findLinkBetween data.links u v = some lf ∧ lf ∈ data.links ∧
      lf.weight = wt := by
  rcases hE.2.2 with ⟨l, hl, hact, hlw, hor⟩
  have hmatch : decide ((l.source = u ∧ l.target = v) ∨
      (l.source = v ∧ l.target = u)) = true := by
    rcases hor with ⟨h1, h2⟩ | ⟨h1, h2⟩ <;> simp [h1, h2]
  have hsome : (findLinkBetween data.links u v).isSome := by
    unfold findLinkBetween
    exact List.find?_isSome.mpr ⟨l, hl, hmatch⟩
  rcases Option.isSome_iff_exists.mp hsome with ⟨lf, hfind⟩
  have hfind2 : data.links.find? (fun l => decide ((l.source = u ∧ l.target = v) ∨
      (l.source = v ∧ l.target = u))) = some lf := hfind
  have hlfmem : lf ∈ data.links := List.mem_of_find?_eq_some hfind2
  have holf := List.find?_some hfind2
  simp only [decide_eq_true_eq] at holf
  have heq : lf = l := by
    apply hpair lf hlfmem l hl
    rcases holf with ⟨a1, a2⟩ | ⟨a1, a2⟩ <;> rcases hor with ⟨b1, b2⟩ | ⟨b1, b2⟩
    · exact Or.inl ⟨by rw [a1, b1], by rw [a2, b2]⟩
    · exact Or.inr ⟨by rw [a1, b2], by rw [a2, b1]⟩
    · exact Or.inr ⟨by rw [a1, b2], by rw [a2, b1]⟩
    · exact Or.inl ⟨by rw [a1, b1], by rw [a2, b2]⟩
  exact ⟨lf, hfind, hlfmem, by rw [heq, hlw]⟩

theorem find_id_of_nodup {links : List Link} {l : Link} (hl : l ∈ links)
    (hlid : (links.map (fun l => l.id)).Nodup) :
    links.find? (fun l2 => decide (l2.id = l.id)) = some l := by
  induction links with
  | nil => cases hl
  | cons a rest ih =>
      have hsplit : a.id ∉ rest.map (fun l => l.id) ∧
          (rest.map (fun l => l.id)).Nodup := by
        rw [List.map_cons] at hlid
        exact List.nodup_cons.mp hlid
      rcases List.mem_cons.mp hl with rfl | hmem
      · simp [List.find?]
      · have hne : ¬ (a.id = l.id) := by
          intro h
          apply hsplit.1
          rw [h]
          exact List.mem_map_of_mem _ hmem
        have hrest := ih hmem hsplit.2
        simp [List.find?_cons, hne, hrest]

theorem linkPathWeight_append (data : GraphData) (a b : List String) :
    linkPathWeight data (a ++ b) =
      linkPathWeight data a + linkPathWeight data b := by
  unfold linkPathWeight
  rw [List.map_append, List.sum_append]

theorem linkPathWeight_id (data : GraphData) {l : Link} (hl : l ∈ data.links)
    (hlid : (data.links.map (fun l => l.id)).Nodup) :
    linkPathWeight data [l.id] = l.weight := by
  unfold linkPathWeight
  simp [find_id_of_nodup hl hlid]

theorem reconLoop_chain (data : GraphData) (s : String) (d : String → Nat)
    (p : String → Option String) (hpair : pairUnique data)
    (hlid : (data.links.map (fun l => l.id)).Nodup)
    (hempty : "" ∉ activeNodeIdList data) (hs : s ∈ activeNodeIdList data)
    (hwpos : ∀ l ∈ data.links, 0 < l.weight) (hds : d s = 0) :
    ∀ {v : String} {chain : List String}, PChain data s d p v chain →
      ∀ (fuel : Nat), chain.length ≤ fuel + 1 →
        ∀ (pathIds nodePath : List String),
          linkPathWeight data (reconLoop p data.links s fuel v pathIds nodePath).1 =
            linkPathWeight data pathIds + d v := by
  intro v chain hchain
  induction hchain with
  | nil =>
      intro fuel _ pathIds nodePath
      cases fuel with
      | zero => simp [reconLoop, hds]
      | succ f => simp [reconLoop, hds]
  | @cons v' u rest hvs hp hEw hrest ih =>
      intro fuel hlen pathIds nodePath
      rcases hEw with ⟨wt, hE, heq⟩
      have hh := (pchain_props data s d p hwpos hs hrest).1
      have hrestne : rest ≠ [] := by
        intro h
        rw [h] at hh
        cases hh
      obtain ⟨f, rfl⟩ : ∃ f, fuel = f + 1 := by
        have h1 : 1 ≤ rest.length := List.length_pos.mpr hrestne
        simp only [List.length_cons] at hlen
        cases fuel with
        | zero => omega
        | succ f => exact ⟨f, rfl⟩
      rcases findLinkBetween_edge data hE hpair with ⟨lf, hfeq, hfmem, hfw⟩
      have hune : ¬ (u = "") := by
        intro h
        have hu := hE.1
        rw [h] at hu
        exact hempty hu
      have hstep : reconLoop p data.links s (f + 1) v' pathIds nodePath =
          reconLoop p data.links s f u (pathIds ++ [lf.id]) (u :: nodePath) := by
        simp only [reconLoop]
        rw [if_neg hvs]
        simp only [hp, if_neg hune, hfeq]
      rw [hstep,
        ih f (by simp only [List.length_cons] at hlen; omega) (pathIds ++ [lf.id])
          (u :: nodePath),
        linkPathWeight_append]
      rw [linkPathWeight_id data hfmem hlid]
      omega

theorem reconLoop_length_le (p : String → Option String) (links : List Link)
    (s : String) :
    ∀ (fuel : Nat) (curr : String) (pathIds nodePath : List String),
      (reconLoop p links s fuel curr pathIds nodePath).1.length ≤
        pathIds.length + fuel := by
  intro fuel
  induction fuel with
  | zero =>
      intro curr pathIds nodePath
      simp [reconLoop]
  | succ f ih =>
      intro curr pathIds nodePath
      simp only [reconLoop]
      by_cases h1 : curr = s
      · rw [if_pos h1]
        simp
      · rw [if_neg h1]
        cases hp : p curr with
        | none =>
            simp
        | some prev =>
            show (if prev = "" then (pathIds, nodePath)
              else reconLoop p links s f prev
                (match findLinkBetween links prev curr with
                  | some l => pathIds ++ [l.id]
                  | none => pathIds)
                (prev :: nodePath)).1.length ≤ pathIds.length + (f + 1)
            by_cases h2 : prev = ""
            · rw [if_pos h2]
              simp
            · rw [if_neg h2]
              cases hf : findLinkBetween links prev curr with
              | none =>
                  simp only [hf]
                  have hr := ih prev pathIds (prev :: nodePath)
                  omega
              | some l =>
                  simp only [hf]
                  have hr := ih prev (pathIds ++ [l.id]) (prev :: nodePath)
                  simp only [List.length_append, List.length_cons,
                    List.length_nil] at hr
                  omega

/-- Claim C8, counterexample: on a topology with two parallel A-B links (the
first inactive with weight 3, the second active with weight 2), the
reconstruction's link lookup returns the first match regardless of its
`active` flag, so the reconstructed link path sums to 5 while the reported
cost is 4. -/
theorem recon_weight_counterexample :
    (shortestPathData (some "C")
        (some (finalStep AlgorithmType.DIJKSTRA dupLinkGraph "A"))
        dupLinkGraph "A") =
      { cost := some 4, pathIds := ["L3", "L1"], pathString := "A → B → C" } ∧
    linkPathWeight dupLinkGraph ["L3", "L1"] = 5 := by
  decide

/-- Claim C8 (amended): on a topology whose links have distinct ids and
positive weights, join each unordered pair of nodes at most once, and whose
active node ids exclude the empty string, reconstruction from the final step
of either algorithm run from an active start is exact: for every node whose
final distance entry is below the sentinel, the reported cost equals that
entry and the weights of the reconstructed link path sum to exactly it. -/
theorem reconstruction_cost_exact (data : GraphData) (s e : String)
    (t : AlgorithmType) (hnd : (nodeIds data).Nodup)
    (hlid : (data.links.map (fun l => l.id)).Nodup)
    (hwpos : ∀ l ∈ data.links, 0 < l.weight) (hpair : pairUnique data)
    (hempty : "" ∉ activeNodeIdList data) (hs : s ∈ activeNodeIdList data)
    (hfin : (finalStep t data s).distances e < INFINITY) :
    (shortestPathData (some e) (some (finalStep t data s)) data s).cost =
      some ((finalStep t data s).distances e) ∧
    linkPathWeight data
        (shortestPathData (some e) (some (finalStep t data s)) data s).pathIds =
      (finalStep t data s).distances e := by
  have hg := goodState_final data s t hnd hs
  have hene : ¬ (e = "") := by
    by_cases hes : e = s
    · intro h
      rw [hes] at h
      rw [h] at hs
      exact hempty hs
    · rcases hg.2.2.2 e hes hfin with ⟨u, wt, _, hE, _, _⟩
      intro h
      have he2 := hE.2.1
      rw [h] at he2
      exact hempty he2
  rcases pchain_exists data s _ _ hg hwpos ((finalStep t data s).distances e) e
      (le_refl _) hfin with ⟨chain, hchain⟩
  have hlen := pchain_length_le data s _ _ hwpos hs hchain
  have hmain := reconLoop_chain data s _ _ hpair hlid hempty hs hwpos hg.2.1
      hchain data.nodes.length (by omega) [] [e]
  simp only [shortestPathData]
  rw [if_neg hene, if_neg (not_le.mpr hfin)]
  constructor
  · rfl
  · show linkPathWeight data
        (reconLoop (finalStep t data s).previous data.links s
          data.nodes.length e [] [e]).1 = (finalStep t data s).distances e
    rw [hmain]
    simp [linkPathWeight]

theorem reconstruction_cost_exact_witness :
    (finalStep AlgorithmType.DIJKSTRA INITIAL_GRAPH "A").distances "F" <
      INFINITY ∧
    linkPathWeight INITIAL_GRAPH
        (shortestPathData (some "F")
          (some (finalStep AlgorithmType.DIJKSTRA INITIAL_GRAPH "A"))
          INITIAL_GRAPH "A").pathIds =
      (finalStep AlgorithmType.DIJKSTRA INITIAL_GRAPH "A").distances "F" :=
  ⟨by decide,
    (reconstruction_cost_exact INITIAL_GRAPH "A" "F" AlgorithmType.DIJKSTRA
      (by decide) (by decide) (by decide) (by unfold pairUnique; decide)
      (by decide) (by decide) (by decide)).2⟩

/-- Claim C9, counterexample: with a cyclic `previous` map (three-node
topology, pointers B ↔ C), the reconstruction exhausts its safety counter and
returns a partial result carrying the walked node string and the finite cost
entry, not the `Unreachable` result. -/
theorem recon_cycle_counterexample :
    (shortestPathData (some "B") (some cyclicStep) triGraph "A") =
      { cost := some 5, pathIds := [], pathString := "C → B → C → B" } ∧
    ({ cost := some 5, pathIds := [], pathString := "C → B → C → B" } :
        PathResult) ≠
      { cost := none, pathIds := [], pathString := "Unreachable" } := by
  decide

/-- Claim C9 (amended): the safety counter bounds the reconstruction to at
most one link per topology node, and the `Unreachable` result is produced
exactly when the end node's distance entry is at or above the sentinel; when
the entry is finite the reported cost is always that entry, even if the walk
stopped early (the result is then partial, not `Unreachable`). -/
theorem recon_safety_bounded (st : SimulationStep) (data : GraphData)
    (s e : String) (hene : e ≠ "") :
    (shortestPathData (some e) (some st) data s).pathIds.length ≤
      data.nodes.length ∧
    ((shortestPathData (some e) (some st) data s).cost = none ↔
      INFINITY ≤ st.distances e) ∧
    (st.distances e < INFINITY →
      (shortestPathData (some e) (some st) data s).cost =
        some (st.distances e)) := by
  simp only [shortestPathData]
  rw [if_neg hene]
  by_cases hinf : INFINITY ≤ st.distances e
  · rw [if_pos hinf]
    exact ⟨by simp, by simp [hinf], fun h => absurd h (not_lt.mpr hinf)⟩
  · rw [if_neg hinf]
    refine ⟨?_, ?_, fun _ => rfl⟩
    · show (reconLoop st.previous data.links s data.nodes.length e [] [e]).1.length ≤
        data.nodes.length
      have hb := reconLoop_length_le st.previous data.links s data.nodes.length
        e [] [e]
      simpa using hb
    · show some (st.distances e) = none ↔ INFINITY ≤ st.distances e
      simp [hinf]

theorem recon_safety_bounded_witness :
    ("B" : String) ≠ "" ∧
    (shortestPathData (some "B") (some cyclicStep) triGraph "A").pathIds.length ≤
      triGraph.nodes.length :=
  ⟨by decide, (recon_safety_bounded cyclicStep triGraph "A" "B" (by decide)).1⟩

theorem packetWalk_chain (data : GraphData) (s : String) (d : String → Nat)
    (p : String → Option String) (hempty : "" ∉ activeNodeIdList data)
    (hs : s ∈ activeNodeIdList data) (hwpos : ∀ l ∈ data.links, 0 < l.weight) :
    ∀ {v : String} {chain : List String}, PChain data s d p v chain →
      ∀ (fuel : Nat), chain.length ≤ fuel → ∀ (path : List String),
        packetWalk p s fuel (some v) path = path ++ chain.dropLast := by
  intro v chain hchain
  induction hchain with
  | nil =>
      intro fuel hlen path
      obtain ⟨f, rfl⟩ : ∃ f, fuel = f + 1 := by
        cases fuel with
        | zero => simp at hlen
        | succ f => exact ⟨f, rfl⟩
      simp [packetWalk]
  | @cons v' u rest hvs hp hEw hrest ih =>
      intro fuel hlen path
      rcases hEw with ⟨wt, hE, heq⟩
      have hh := (pchain_props data s d p hwpos hs hrest).1
      have hrestne : rest ≠ [] := by
        intro h
        rw [h] at hh
        cases hh
      obtain ⟨f, rfl⟩ : ∃ f, fuel = f + 1 := by
        have h1 : 1 ≤ rest.length := List.length_pos.mpr hrestne
        simp only [List.length_cons] at hlen
        cases fuel with
        | zero => omega
        | succ f => exact ⟨f, rfl⟩
      have hvne : ¬ (v' = "" ∨ v' = s) := by
        rintro (h | h)
        · have hv := hE.2.1
          rw [h] at hv
          exact hempty hv
        · exact hvs h
      have hstep : packetWalk p s (f + 1) (some v') path =
          packetWalk p s f (p v') (path ++ [v']) := by
        simp only [packetWalk]
        rw [if_neg hvne]
      rw [hstep, hp,
        ih f (by simp only [List.length_cons] at hlen; omega) (path ++ [v'])]
      obtain ⟨r, rs, rfl⟩ : ∃ r rs, rest = r :: rs := by
        cases rest with
        | nil => exact absurd rfl hrestne
        | cons r rs => exact ⟨r, rs, rfl⟩
      simp [List.dropLast]

theorem updatePacket_delivered (algorithm : AlgorithmType) (data : GraphData)
    (delta : ℚ) (pk : Packet) (a : String)
    (hmov : pk.status = PacketStatus.moving) (hnext : pk.nextHopId = some a)
    (harr : 1 ≤ pk.progress + pk.speed * delta) (heq : a = pk.targetId) :
    updatePacket algorithm data delta pk =
      { pk with progress := 1, status := PacketStatus.delivered,
                currentEdgeId := none, currentNodeId := a } := by
  have h1 : ¬ (pk.status ≠ PacketStatus.moving) := by simp [hmov]
  simp only [updatePacket]
  rw [if_neg h1, if_pos harr, hnext, Option.getD_some, if_pos heq]

theorem updatePacket_unreachable (algorithm : AlgorithmType) (data : GraphData)
    (delta : ℚ) (pk : Packet) (a : String)
    (hmov : pk.status = PacketStatus.moving) (hnext : pk.nextHopId = some a)
    (harr : 1 ≤ pk.progress + pk.speed * delta) (hne : ¬ (a = pk.targetId))
    (hinf : INFINITY ≤ (finalStep algorithm data a).distances pk.targetId) :
    updatePacket algorithm data delta pk =
      { pk with status := PacketStatus.lost, progress := 1 } := by
  have h1 : ¬ (pk.status ≠ PacketStatus.moving) := by simp [hmov]
  have hfs : (runAlgorithm algorithm data a).getLastD defaultStep =
      finalStep algorithm data a := rfl
  simp only [updatePacket]
  rw [if_neg h1, if_pos harr, hnext, Option.getD_some, if_neg hne, hfs,
    if_pos hinf]

theorem updatePacket_arrived (algorithm : AlgorithmType) (data : GraphData)
    (delta : ℚ) (pk : Packet) (a : String)
    (hmov : pk.status = PacketStatus.moving) (hnext : pk.nextHopId = some a)
    (harr : 1 ≤ pk.progress + pk.speed * delta) (hne : ¬ (a = pk.targetId))
    (hfin : ¬ (INFINITY ≤ (finalStep algorithm data a).distances pk.targetId)) :
    updatePacket algorithm data delta pk =
      (match (packetWalk (finalStep algorithm data a).previous a
          (data.nodes.length + 1) (some pk.targetId) []).getLast? with
       | none => { pk with status := PacketStatus.lost }
       | some nextHop =>
         match findLinkBetween data.links a nextHop with
         | some link =>
           if link.active then
             { pk with currentNodeId := a, nextHopId := some nextHop,
                       currentEdgeId := some link.id, progress := 0 }
           else { pk with status := PacketStatus.lost }
         | none => { pk with status := PacketStatus.lost }) := by
  have h1 : ¬ (pk.status ≠ PacketStatus.moving) := by simp [hmov]
  have hfs : (runAlgorithm algorithm data a).getLastD defaultStep =
      finalStep algorithm data a := rfl
  simp only [updatePacket]
  rw [if_neg h1, if_pos harr, hnext, Option.getD_some, if_neg hne, hfs,
    if_neg hfin]

/-- Claim C5, counterexample: a packet arriving at A while heading for C on
`dupLinkGraph` is dropped as `lost` although its target is reachable
(distance 4) and an active A-B link exists: the forwarding lookup returned the
first (inactive) A-B link. -/
theorem packet_lost_counterexample :
    (updatePacket AlgorithmType.DIJKSTRA dupLinkGraph 0 lostPacket).status =
      PacketStatus.lost ∧
    (finalStep AlgorithmType.DIJKSTRA dupLinkGraph "A").distances "C" <
      INFINITY ∧
    ∃ l ∈ dupLinkGraph.links, l.active = true ∧
      ((l.source = "A" ∧ l.target = "B") ∨ (l.source = "B" ∧ l.target = "A")) := by
  refine ⟨?_, by decide, ⟨"L2", "A", "B", 2, true⟩, by decide, rfl, Or.inl ⟨rfl, rfl⟩⟩
  rw [updatePacket_arrived AlgorithmType.DIJKSTRA dupLinkGraph 0 lostPacket "A"
    rfl rfl (by norm_num [lostPacket]) (by decide) (by decide)]
  decide

/-- Claim C5 (amended): when a moving packet's progress reaches 1 at node `a`
(on a topology with distinct node ids, positive link weights and no active
empty node id): arrival at the target delivers the packet; otherwise the
engine re-routes from `a`, and if the target's distance is at or above the
sentinel the packet is lost with progress forced to 1; if it is below, the
backward walk always yields a first hop, and the packet is forwarded over the
*first* link of the topology joining `a` to that hop if that link is active,
and is lost if that first matching link is absent or inactive (even if another
active link joins the same pair). -/
theorem packet_arrival_update (algorithm : AlgorithmType) (data : GraphData)
    (delta : ℚ) (pk : Packet) (a : String)
    (hnd : (nodeIds data).Nodup) (hwpos : ∀ l ∈ data.links, 0 < l.weight)
    (hempty : "" ∉ activeNodeIdList data)
    (hmov : pk.status = PacketStatus.moving) (hnext : pk.nextHopId = some a)
    (harr : 1 ≤ pk.progress + pk.speed * delta) :
    (a = pk.targetId →
      updatePacket algorithm data delta pk =
        { pk with progress := 1, status := PacketStatus.delivered,
                  currentEdgeId := none, currentNodeId := a }) ∧
    (¬ (a = pk.targetId) →
      INFINITY ≤ (finalStep algorithm data a).distances pk.targetId →
      updatePacket algorithm data delta pk =
        { pk with status := PacketStatus.lost, progress := 1 }) ∧
    (¬ (a = pk.targetId) →
      (finalStep algorithm data a).distances pk.targetId < INFINITY →
      ∃ hop, (packetWalk (finalStep algorithm data a).previous a
            (data.nodes.length + 1) (some pk.targetId) []).getLast? = some hop ∧
        ((∀ l, findLinkBetween data.links a hop = some l → l.active = false) →
          (updatePacket algorithm data delta pk).status = PacketStatus.lost) ∧
        (∀ l, findLinkBetween data.links a hop = some l → l.active = true →
          updatePacket algorithm data delta pk =
            { pk with currentNodeId := a, nextHopId := some hop,
                      currentEdgeId := some l.id, progress := 0 })) := by
  refine ⟨fun heq =>
      updatePacket_delivered algorithm data delta pk a hmov hnext harr heq,
    fun hne hinf =>
      updatePacket_unreachable algorithm data delta pk a hmov hnext harr hne hinf,
    ?_⟩
  intro hne hfin
  by_cases hact : a ∈ activeNodeIdList data
  · have hg := goodState_final data a algorithm hnd hact
    have htne : pk.targetId ≠ a := fun h => hne h.symm
    rcases pchain_exists data a _ _ hg hwpos
        ((finalStep algorithm data a).distances pk.targetId) pk.targetId
        (le_refl _) hfin with ⟨chain, hchain⟩
    have hlen := pchain_length_le data a _ _ hwpos hact hchain
    have hwalk := packetWalk_chain data a _ _ hempty hact hwpos hchain
      (data.nodes.length + 1) (by omega) []
    rw [List.nil_append] at hwalk
    rcases pchain_props data a _ _ hwpos hact hchain with ⟨hh, hl, _, _⟩
    have h2 : 2 ≤ chain.length := by
      cases chain with
      | nil => cases hh
      | cons x xs =>
          cases xs with
          | nil =>
              have hx1 : x = pk.targetId := by simpa using hh
              have hx2 : x = a := by simpa using hl
              exact absurd (by rw [← hx1]; exact hx2) htne
          | cons y ys =>
              simp only [List.length_cons]
              omega
    have hdrop : chain.dropLast ≠ [] := by
      have hld := List.length_dropLast chain
      intro h
      rw [h] at hld
      simp only [List.length_nil] at hld
      omega
    obtain ⟨hop, hhop⟩ :=
      Option.isSome_iff_exists.mp (List.getLast?_isSome.mpr hdrop)
    have hred := updatePacket_arrived algorithm data delta pk a hmov hnext harr
      hne (not_le.mpr hfin)
    rw [hwalk] at hred
    simp only [hhop] at hred
    refine ⟨hop, by rw [hwalk]; exact hhop, ?_, ?_⟩
    · intro hall
      cases hfl : findLinkBetween data.links a hop with
      | none =>
          rw [hred]
          simp only [hfl]
      | some l =>
          have hla := hall l hfl
          rw [hred]
          simp only [hfl, if_neg (by simp [hla] : ¬ l.active = true)]
    · intro l hfl hla
      rw [hred]
      simp only [hfl, if_pos hla]
  · exfalso
    rw [(finalStep_inactive algorithm data a hact).1] at hfin
    have hini := initDist_ne_start data a pk.targetId (fun h => hne h.symm)
    omega

theorem packet_arrival_update_witness :
    updatePacket AlgorithmType.DIJKSTRA INITIAL_GRAPH 0 movingPacket =
      { movingPacket with progress := 1, status := PacketStatus.delivered,
                          currentEdgeId := none, currentNodeId := "F" } :=
  (packet_arrival_update AlgorithmType.DIJKSTRA INITIAL_GRAPH 0 movingPacket "F"
    (by decide) (by decide) (by decide) rfl rfl
    (by norm_num [movingPacket])).1 rfl

/-! ## Claim C6: structure of the Bellman-Ford iteration -/

/-- Claim C6: for every topology and active start node, the Bellman-Ford
variant runs its outer loop with exactly (active node count − 1) rounds of
fuel and always appends a final complete step carrying the final tables (first
conjunct); a round that performs zero relaxations stops the loop immediately —
whatever fuel remains — leaving the tables unchanged and emitting a converged
step (second conjunct); each round scans every active link with two active
endpoints and relaxes it in both directions, so afterwards each direction's
target entry is bounded by the round's entry distance of the source plus the
link weight whenever that source was reachable (third conjunct); and a round
that reports no change witnesses that no guarded strict relaxation applied to
any scanned link in either direction (fourth conjunct). -/
theorem bellman_iteration_structure (data : GraphData) (s : String)
    (hs : s ∈ activeNodeIdList data) :
    (runBellmanFord data s =
      (bfIter (data.links.filter (fun l => l.active)) (activeNodeIdList data)
          ((data.nodes.filter (fun n => n.active)).length - 1) 0
          [bellmanInitStep data s] ⟨initDist data s, initPrev data⟩).1 ++
        [{ stepIndex := (bellmanRun data s).1.length,
           description := "Bellman-Ford Algorithm complete.",
           distances := (bellmanRun data s).2.dist,
           previous := (bellmanRun data s).2.prev, activeNodes := [],
           activeLinks := [], visitedNodes := [] }]) ∧
    (∀ (fuel i : Nat) (steps : List SimulationStep) (st : BState),
      (bfRound (data.links.filter (fun l => l.active)) (activeNodeIdList data)
          i steps st).2.2 = false →
      bfIter (data.links.filter (fun l => l.active)) (activeNodeIdList data)
          (fuel + 1) i steps st =
        (steps ++
          [{ stepIndex := steps.length,
             description := s!"Iteration {i + 1}: No changes. Converged.",
             distances := st.dist, previous := st.prev, activeNodes := [],
             activeLinks := [], visitedNodes := [] }], st)) ∧
    (∀ (i : Nat) (steps : List SimulationStep) (st : BState) (l : Link),
      l ∈ data.links → l.active = true →
      l.source ∈ activeNodeIdList data → l.target ∈ activeNodeIdList data →
      (st.dist l.source < INFINITY →
        (bfRound (data.links.filter (fun l => l.active))
            (activeNodeIdList data) i steps st).2.1.dist l.target ≤
          st.dist l.source + l.weight) ∧
      (st.dist l.target < INFINITY →
        (bfRound (data.links.filter (fun l => l.active))
            (activeNodeIdList data) i steps st).2.1.dist l.source ≤
          st.dist l.target + l.weight)) ∧
    (∀ (i : Nat) (steps : List SimulationStep) (st : BState),
      (bfRound (data.links.filter (fun l => l.active)) (activeNodeIdList data)
          i steps st).2.2 = false →
      ∀ l ∈ data.links, l.active = true →
        l.source ∈ activeNodeIdList data → l.target ∈ activeNodeIdList data →
        ¬(st.dist l.source ≠ INFINITY ∧
          st.dist l.source + l.weight < st.dist l.target) ∧
        ¬(st.dist l.target ≠ INFINITY ∧
          st.dist l.target + l.weight < st.dist l.source)) := by
  refine ⟨?_, ?_, ?_, ?_⟩
  · unfold runBellmanFord
    rw [if_pos hs]
    rfl
  · intro fuel i steps st hflag
    have hacc2 : bfRound (data.links.filter (fun l => l.active))
        (activeNodeIdList data) i steps st = (steps, st, false) :=
      (bfScan_flag_false (activeNodeIdList data) i
        (data.links.filter (fun l => l.active)) (steps, st, false) hflag).1
    have hcond : ¬ ((bfRound (data.links.filter (fun l => l.active))
        (activeNodeIdList data) i steps st).2.2 = true) := by
      rw [hacc2]
      simp
    simp only [bfIter]
    rw [if_neg hcond, hacc2]
  · intro i steps st l hmem hact hsrc htgt
    have hfl : l ∈ data.links.filter (fun l => l.active) :=
      List.mem_filter.mpr ⟨hmem, by simp [hact]⟩
    exact bfScan_relax (activeNodeIdList data) i
      (data.links.filter (fun l => l.active)) (steps, st, false) l hfl hsrc htgt
  · intro i steps st hflag l hmem hact hsrc htgt
    have hfl : l ∈ data.links.filter (fun l => l.active) :=
      List.mem_filter.mpr ⟨hmem, by simp [hact]⟩
    exact (bfScan_flag_false (activeNodeIdList data) i
      (data.links.filter (fun l => l.active)) (steps, st, false) hflag).2
      l hfl hsrc htgt

theorem bellman_iteration_structure_witness :
    ("A" : String) ∈ activeNodeIdList INITIAL_GRAPH ∧
    runBellmanFord INITIAL_GRAPH "A" =
      (bfIter (INITIAL_GRAPH.links.filter (fun l => l.active))
          (activeNodeIdList INITIAL_GRAPH)
          ((INITIAL_GRAPH.nodes.filter (fun n => n.active)).length - 1) 0
          [bellmanInitStep INITIAL_GRAPH "A"]
          ⟨initDist INITIAL_GRAPH "A", initPrev INITIAL_GRAPH⟩).1 ++
        [{ stepIndex := (bellmanRun INITIAL_GRAPH "A").1.length,
           description := "Bellman-Ford Algorithm complete.",
           distances := (bellmanRun INITIAL_GRAPH "A").2.dist,
           previous := (bellmanRun INITIAL_GRAPH "A").2.prev, activeNodes := [],
           activeLinks := [], visitedNodes := [] }] :=
  ⟨by decide, (bellman_iteration_structure INITIAL_GRAPH "A" (by decide)).1⟩
